import Mathlib

/-! YOLOv5 post-processing (`2.12-yolov5-postprocess/src/main.cpp`).

A shallow embedding of `decode_cpu` (decode, threshold, sort, greedy label-scoped NMS)
and of the host-side reconstruction loop of `decode_gpu`.

Modelling conventions:
* `float` values are exact rationals (`ℚ`); `int` values are integers, and the one `int`
  product of the code (`i * clos`, line 39) fails (`none`) when it leaves the 32-bit range;
* the prediction buffer `float *predict` is a `List ℚ`, and every read goes through
  `readAt`, which fails (`none`) outside the buffer, so that a result `some _` means
  that every element the code read was inside the buffer;
* `std::sort` is a parameter `sort` constrained only by the contract of `std::sort`
  (`IsStdSort`): the result is a permutation of the input, ordered for the comparator;
  `libstdcxx_sort` is the algorithm libstdc++ runs for it;
* `iou` (declared in the header `box.hpp`, which is not among the sources) is a parameter
  of `decode_cpu`; a definition following the specification is given for the scenarios.
-/

namespace Yolov5

/-- Modelled from the spec: the value type `Box` of the header `box.hpp` (not among the
sources): `{left, top, right, bottom: float; confidence: float; label: integer}`, built by
`Box(left, top, right, bottom, confidence, label)`. -/
structure Box where
  left : ℚ
  top : ℚ
  right : ℚ
  bottom : ℚ
  confidence : ℚ
  label : Int
deriving DecidableEq

/-- Modelled from the spec: `iou` of the header `box.hpp` (not among the sources):
intersection area divided by union area of two axis-aligned boxes, `0` when the boxes do
not overlap (so never a division by zero on degenerate boxes). -/
def iou (a b : Box) : ℚ :=
  let cleft := max a.left b.left
  let ctop := max a.top b.top
  let cright := min a.right b.right
  let cbottom := min a.bottom b.bottom
  let c_area := max (cright - cleft) 0 * max (cbottom - ctop) 0
  if c_area = 0 then 0
  else
    let a_area := max 0 (a.right - a.left) * max 0 (a.bottom - a.top)
    let b_area := max 0 (b.right - b.left) * max 0 (b.bottom - b.top)
    c_area / (a_area + b_area - c_area)

/-- A read `p[idx]` of the buffer `p`: `none` when `idx` is outside `[0, p.length)`. -/
def readAt (p : List ℚ) (idx : Int) : Option ℚ :=
  if 0 ≤ idx then p[idx.toNat]? else none

/-- The loop of `std::max_element` after its first step: `largest` is the offset of the
best element so far and the list holds the offsets `first` still to visit; each step reads
`*largest` and `*first` and moves `largest` only on a strict `<`. -/
def max_element_loop (p : List ℚ) (pclass : Int) : List Nat → Nat → Option Nat
  | [], largest => some largest
  | first :: rest, largest =>
    match readAt p (pclass + largest), readAt p (pclass + first) with
    | some a, some b => max_element_loop p pclass rest (if a < b then first else largest)
    | _, _ => none

/-- `std::max_element(pclass, pclass + num_classes) - pclass`. On an empty range the
function returns `last`, here offset `0`, without reading. A range with `last` before
`first` is never exhausted by `first != last`: the walk leaves the buffer (`none`). -/
def max_element (p : List ℚ) (pclass : Int) (num_classes : Int) : Option Nat :=
  if num_classes < 0 then none
  else if num_classes = 0 then some 0
  else max_element_loop p pclass (List.range' 1 (num_classes.toNat - 1)) 0

/-- The greatest value of the 32-bit type `int`. -/
def INT_MAX : Int := 2147483647

/-- The least value of the 32-bit type `int`. -/
def INT_MIN : Int := -2147483648

/-- Lines 41-66 of the body of the first loop of `decode_cpu`, for the row that starts at
offset `pitem` of the buffer: `none` is an out-of-bounds read, `some none` a skipped row
(`continue`), `some (some b)` the box handed to `boxes.emplace_back`. -/
def decode_row_at (p : List ℚ) (clos : Int) (confidence_threshold : ℚ) (pitem : Int) :
    Option (Option Box) :=
  match readAt p (pitem + 4) with
  | none => none
  | some objness =>
    if objness < confidence_threshold then some none
    else
      let pclass := pitem + 5
      let num_classes := clos - 5
      match max_element p pclass num_classes with
      | none => none
      | some label =>
        match readAt p (pclass + label) with
        | none => none
        | some prob =>
          let confidence := prob * objness
          if confidence < confidence_threshold then some none
          else
            match readAt p (pitem + 0), readAt p (pitem + 1), readAt p (pitem + 2),
              readAt p (pitem + 3) with
            | some cx, some cy, some width, some height =>
              some (some
                { left := cx - width * (1 / 2)
                  top := cy - height * (1 / 2)
                  right := cx + width * (1 / 2)
                  bottom := cy + height * (1 / 2)
                  confidence := confidence
                  label := (label : Int) })
            | _, _, _, _ => none

/-- The body of the first loop of `decode_cpu` for row `i` (lines 39-66). Line 39 forms the
offset `i * clos` as a product of two 32-bit `int`: when the product leaves the range of
`int` the multiplication overflows, which is undefined behaviour, and the row fails
(`none`) as it does on an out-of-bounds read; otherwise the row is decoded at that
offset. -/
def decode_row (p : List ℚ) (clos : Int) (confidence_threshold : ℚ) (i : Nat) :
    Option (Option Box) :=
  if INT_MIN ≤ (i : Int) * clos ∧ (i : Int) * clos ≤ INT_MAX then
    decode_row_at p clos confidence_threshold ((i : Int) * clos)
  else none

/-- The first loop of `decode_cpu` (lines 36-67) over the row indices still to visit,
`boxes` being the vector filled so far. -/
def decode_loop (p : List ℚ) (clos : Int) (confidence_threshold : ℚ) :
    List Nat → List Box → Option (List Box)
  | [], boxes => some boxes
  | i :: rest, boxes =>
    match decode_row p clos confidence_threshold i with
    | none => none
    | some none => decode_loop p clos confidence_threshold rest boxes
    | some (some b) => decode_loop p clos confidence_threshold rest (boxes ++ [b])

/-- The thresholded candidates: the vector `boxes` at line 67, one box per qualifying row,
in row order (`for (int i = 0; i < rows; i++)`). -/
def decode_candidates (p : List ℚ) (rows clos : Int) (confidence_threshold : ℚ) :
    Option (List Box) :=
  decode_loop p clos confidence_threshold (List.range rows.toNat) []

/-- The comparator handed to `std::sort`: `a.confidence > b.confidence`. -/
def sort_comp (a b : Box) : Prop := a.confidence > b.confidence

instance (a b : Box) : Decidable (sort_comp a b) := by
  unfold sort_comp; infer_instance

/-- The contract of `std::sort(first, last, comp)`: the result is a permutation of the
input and no element compares before an element placed ahead of it. -/
def IsStdSort (sort : List Box → List Box) : Prop :=
  ∀ l, (sort l).Perm l ∧ (sort l).Pairwise (fun a b => ¬ sort_comp b a)

/-- One implementation meeting the contract of `std::sort`: insertion sort by descending
confidence. -/
def insertion_sort (l : List Box) : List Box :=
  l.insertionSort (fun a b => a.confidence ≥ b.confidence)

/-- The inner loop of the suppression (lines 83-93) for the accepted box `ibox`, over the
indices `j` still to visit. The loop keeps `j < boxes.size()`, so the branch `none` of
`boxes[j]?` is never taken there. -/
def nms_inner (iou : Box → Box → ℚ) (nms_threshold : ℚ) (boxes : List Box) (ibox : Box) :
    List Nat → List Bool → List Bool
  | [], remove_flags => remove_flags
  | j :: rest, remove_flags =>
    if remove_flags.getD j false then
      nms_inner iou nms_threshold boxes ibox rest remove_flags
    else
      match boxes[j]? with
      | none => nms_inner iou nms_threshold boxes ibox rest remove_flags
      | some jbox =>
        if ibox.label = jbox.label then
          if iou ibox jbox ≥ nms_threshold then
            nms_inner iou nms_threshold boxes ibox rest (remove_flags.set j true)
          else nms_inner iou nms_threshold boxes ibox rest remove_flags
        else nms_inner iou nms_threshold boxes ibox rest remove_flags

/-- The outer loop of the suppression (lines 77-94) over the indices `i` still to visit,
with the current `remove_flags` and `box_result`. The loop keeps `i < boxes.size()`, so
the branch `none` of `boxes[i]?` is never taken there. -/
def nms_outer (iou : Box → Box → ℚ) (nms_threshold : ℚ) (boxes : List Box) :
    List Nat → List Bool → List Box → List Box
  | [], _, box_result => box_result
  | i :: rest, remove_flags, box_result =>
    if remove_flags.getD i false then
      nms_outer iou nms_threshold boxes rest remove_flags box_result
    else
      match boxes[i]? with
      | none => nms_outer iou nms_threshold boxes rest remove_flags box_result
      | some ibox =>
        nms_outer iou nms_threshold boxes rest
          (nms_inner iou nms_threshold boxes ibox
            (List.range' (i + 1) (boxes.length - (i + 1))) remove_flags)
          (box_result ++ [ibox])

/-- Lines 72-94 of `decode_cpu`: `remove_flags` starts all `false`, `box_result` empty. -/
def nms (iou : Box → Box → ℚ) (nms_threshold : ℚ) (boxes : List Box) : List Box :=
  nms_outer iou nms_threshold boxes (List.range boxes.length)
    (List.replicate boxes.length false) []

/-- The function `decode_cpu` (lines 26-101): decode and threshold, sort, suppress. -/
def decode_cpu (sort : List Box → List Box) (iou : Box → Box → ℚ) (predict : List ℚ)
    (rows clos : Int) (confidence_threshold nms_threshold : ℚ) : Option (List Box) :=
  match decode_candidates predict rows clos confidence_threshold with
  | none => none
  | some boxes => some (nms iou nms_threshold (sort boxes))

/-- The suppression test of lines 88-90: the accepted `ibox` removes `jbox`. -/
def suppresses (iou : Box → Box → ℚ) (nms_threshold : ℚ) (ibox jbox : Box) : Bool :=
  decide (ibox.label = jbox.label) && decide (iou ibox jbox ≥ nms_threshold)

/-- The suppression loop in functional form: the head is accepted and the boxes it
removes are filtered out of the tail. `nms_eq_greedy` shows that `nms` computes it. -/
def greedy (iou : Box → Box → ℚ) (nms_threshold : ℚ) : List Box → List Box
  | [] => []
  | b :: rest =>
    b :: greedy iou nms_threshold (rest.filter (fun c => !suppresses iou nms_threshold b c))
termination_by l => l.length
decreasing_by
  simp_wf
  exact Nat.lt_succ_of_le (List.length_filter_le _ _)

/-- The boxes of `boxes` whose flag in `remove_flags` is not set. -/
def live : List Box → List Bool → List Box
  | b :: bs, r :: rs => if r then live bs rs else b :: live bs rs
  | _, _ => []

/-- The local `int max_objects = 100` of `decode_gpu` (line 119). -/
def max_objects : Int := 100

/-- The local `int NUM_BOX_ELEMENT = 7` of `decode_gpu` (line 121):
left, top, right, bottom, confidence, class, keepflag. -/
def NUM_BOX_ELEMENT : Int := 7

/-- The conversion `(int)x` of a float inside the range of `int`: truncation toward
zero. The reconstruction takes the conversion as a parameter `to_int`, so that what is
proved of it holds whatever a conversion outside that range yields. -/
def float_to_int (x : ℚ) : Int := if 0 ≤ x then ⌊x⌋ else ⌈x⌉

/-- The body of the reconstruction loop of `decode_gpu` for record `i` (lines 140-146):
`none` is an out-of-bounds read, `some none` a record whose keep flag is zero,
`some (some b)` the box handed to `box_result.emplace_back`. -/
def gpu_record (to_int : ℚ → Int) (output_host : List ℚ) (i : Nat) : Option (Option Box) :=
  let ptr : Int := 1 + NUM_BOX_ELEMENT * (i : Int)
  match readAt output_host (ptr + 6) with
  | none => none
  | some keep =>
    let keep_flag := to_int keep
    if keep_flag ≠ 0 then
      match readAt output_host (ptr + 0), readAt output_host (ptr + 1),
        readAt output_host (ptr + 2), readAt output_host (ptr + 3),
        readAt output_host (ptr + 4), readAt output_host (ptr + 5) with
      | some l, some t, some r, some b, some c, some lab =>
        some (some
          { left := l, top := t, right := r, bottom := b, confidence := c,
            label := to_int lab })
      | _, _, _, _, _, _ => none
    else some none

/-- The reconstruction loop of `decode_gpu` (lines 138-147) over the record indices still
to visit, `box_result` being the vector filled so far. -/
def gpu_loop (to_int : ℚ → Int) (output_host : List ℚ) :
    List Nat → List Box → Option (List Box)
  | [], box_result => some box_result
  | i :: rest, box_result =>
    match gpu_record to_int output_host i with
    | none => none
    | some none => gpu_loop to_int output_host rest box_result
    | some (some b) => gpu_loop to_int output_host rest (box_result ++ [b])

/-- The host-side reconstruction of `decode_gpu` (lines 137-147) from the content of
`output_host` after `cudaStreamSynchronize`: read the counter, clamp it to `max_objects`,
keep the records whose keep flag is non-zero. -/
def decode_gpu_host (to_int : ℚ → Int) (output_host : List ℚ) : Option (List Box) :=
  match readAt output_host 0 with
  | none => none
  | some counter =>
    let num_boxes := min (to_int counter) max_objects
    gpu_loop to_int output_host (List.range num_boxes.toNat) []

/-- The function `decode_gpu` (lines 106-159). The kernel `decode_kernel_invoker` is
external: `kernel` stands for it together with the two copies, and gives the content of
`output_host` at line 137 from the arguments of the call at lines 127-129. -/
def decode_gpu (kernel : List ℚ → Int → Int → ℚ → ℚ → Int → Int → List ℚ)
    (to_int : ℚ → Int) (predict : List ℚ) (rows cols : Int)
    (confidence_threshold nms_threshold : ℚ) : Option (List Box) :=
  decode_gpu_host to_int
    (kernel predict rows (cols - 5) confidence_threshold nms_threshold max_objects
      NUM_BOX_ELEMENT)

/-! ## Concrete inputs and specification-level definitions -/

/-- Scenario A of the specification: one row, two classes. -/
def scenarioA : List ℚ := [10, 10, 4, 4, 9 / 10, 9 / 10, 1 / 10]

/-- Scenario B: the row of scenario A, then a copy with objectness `0.5`. -/
def scenarioB : List ℚ :=
  [10, 10, 4, 4, 9 / 10, 9 / 10, 1 / 10, 10, 10, 4, 4, 1 / 2, 9 / 10, 1 / 10]

/-- Scenario D: two rows with the same geometry and different winning classes. -/
def scenarioD : List ℚ :=
  [10, 10, 4, 4, 9 / 10, 9 / 10, 1 / 10, 10, 10, 4, 4, 8 / 10, 1 / 10, 9 / 10]

/-- Two rows of the same class whose boxes are far apart. -/
def twoApart : List ℚ :=
  [10, 10, 4, 4, 9 / 10, 9 / 10, 1 / 10, 30, 30, 4, 4, 8 / 10, 9 / 10, 1 / 10]

/-- The rows of `twoApart` in ascending order of confidence. -/
def twoAscending : List ℚ :=
  [30, 30, 4, 4, 8 / 10, 9 / 10, 1 / 10, 10, 10, 4, 4, 9 / 10, 9 / 10, 1 / 10]

/-- One row without class scores (`cols = 5`) whose objectness passes the threshold. -/
def zeroClasses : List ℚ := [0, 0, 0, 0, 1]

/-- A host output buffer with counter `2` and two records, the second with keep flag
`0`. -/
def twoRecords : List ℚ := [2, 1, 2, 3, 4, 9 / 10, 0, 1, 5, 6, 7, 8, 8 / 10, 1, 0]

/-- A host output buffer of `1 + 100 * 7` values, all `0`. -/
def zeroBuffer : List ℚ := List.replicate 701 0

/-- The rows below `rows` that pass both threshold tests of the first loop of
`decode_cpu`, that is, the rows for which a box is appended to `boxes`. -/
def qualifying_rows (p : List ℚ) (rows clos : Int) (confidence_threshold : ℚ) : List Nat :=
  (List.range rows.toNat).filter (fun i =>
    match decode_row p clos confidence_threshold i with
    | some (some _) => true
    | _ => false)

/-- The invariant of `std::max_element` when `first` has reached offset `s`: `largest` is
the first offset below `s` that holds the greatest of the values at offsets below `s`. -/
def FirstMaxBelow (p : List ℚ) (pclass : Int) (largest s : Nat) : Prop :=
  largest < s ∧ ∃ vl, readAt p (pclass + largest) = some vl ∧
    (∀ k : Nat, k < s → ∃ v, readAt p (pclass + k) = some v ∧ v ≤ vl) ∧
    (∀ k : Nat, k < largest → ∃ v, readAt p (pclass + k) = some v ∧ v < vl)

/-- The box `b` carries, for row `r`, the first offset of the greatest class score as its
label, and that score times the objectness of the row as its confidence. -/
def RowFirstMax (p : List ℚ) (cols : Int) (r : Nat) (b : Box) : Prop :=
  ∃ (label : Nat) (objness prob : ℚ),
    b.label = (label : Int) ∧ (label : Int) < cols - 5 ∧
    readAt p ((r : Int) * cols + 4) = some objness ∧
    readAt p ((r : Int) * cols + 5 + label) = some prob ∧
    b.confidence = prob * objness ∧
    (∀ k : Nat, (k : Int) < cols - 5 →
      ∃ v, readAt p ((r : Int) * cols + 5 + k) = some v ∧ v ≤ prob) ∧
    (∀ k : Nat, k < label → ∃ v, readAt p ((r : Int) * cols + 5 + k) = some v ∧ v < prob)

/-- One row whose objectness and class score are both `2`. -/
def overOne : List ℚ := [0, 0, 0, 0, 2, 2]

/-- One row with objectness `0.5` and class score `-0.5`. -/
def belowZero : List ℚ := [0, 0, 0, 0, 1 / 2, -1 / 2]

/-- One row whose two class scores are equal. -/
def tiedClasses : List ℚ := [10, 10, 4, 4, 9 / 10, 9 / 10, 9 / 10]

/-- Row `r` passes both threshold tests of the first loop of `decode_cpu`: its objectness
is at least `confidence_threshold`, and so is the score of the class `std::max_element`
picks times the objectness. -/
def RowPasses (p : List ℚ) (cols : Int) (confidence_threshold : ℚ) (r : Nat) : Prop :=
  ∃ (objness prob : ℚ) (label : Nat),
    readAt p ((r : Int) * cols + 4) = some objness ∧ objness ≥ confidence_threshold ∧
    max_element p ((r : Int) * cols + 5) (cols - 5) = some label ∧
    readAt p ((r : Int) * cols + 5 + label) = some prob ∧
    prob * objness ≥ confidence_threshold

/-- Scenario C of the specification: a row with objectness `0.1`. -/
def scenarioC : List ℚ := [10, 10, 4, 4, 1 / 10, 9 / 10, 1 / 10]

/-- Field `k` of record `i` of the host output buffer, one counter followed by records of
seven fields; a field outside the buffer counts as `0`. -/
def gpu_field (output_host : List ℚ) (i k : Nat) : ℚ :=
  output_host.getD (1 + 7 * i + k) 0

/-- The reconstruction of `decode_gpu` as the specification words it: of the records with
index below `min(int(counter), max_objects)`, in record order, those whose keep flag
(field 6 converted to int) is non-zero, each as
`Box(field0, field1, field2, field3, field4, int(field5))`. -/
def reconstruct_spec (to_int : ℚ → Int) (output_host : List ℚ) : List Box :=
  ((List.range (min (to_int (output_host.getD 0 0)) 100).toNat).filter
      (fun i => decide (to_int (gpu_field output_host i 6) ≠ 0))).map
    (fun i =>
      { left := gpu_field output_host i 0
        top := gpu_field output_host i 1
        right := gpu_field output_host i 2
        bottom := gpu_field output_host i 3
        confidence := gpu_field output_host i 4
        label := to_int (gpu_field output_host i 5) })

/-- Lines 41-66 of the variant of the body of the first loop that omits the early test
`objness < confidence_threshold` (lines 42-43): a row is skipped on the combined
confidence only. Everything else is `decode_row_at`. -/
def decode_row_no_early_skip_at (p : List ℚ) (clos : Int) (confidence_threshold : ℚ)
    (pitem : Int) : Option (Option Box) :=
  match readAt p (pitem + 4) with
  | none => none
  | some objness =>
    let pclass := pitem + 5
    let num_classes := clos - 5
    match max_element p pclass num_classes with
    | none => none
    | some label =>
      match readAt p (pclass + label) with
      | none => none
      | some prob =>
        let confidence := prob * objness
        if confidence < confidence_threshold then some none
        else
          match readAt p (pitem + 0), readAt p (pitem + 1), readAt p (pitem + 2),
            readAt p (pitem + 3) with
          | some cx, some cy, some width, some height =>
            some (some
              { left := cx - width * (1 / 2)
                top := cy - height * (1 / 2)
                right := cx + width * (1 / 2)
                bottom := cy + height * (1 / 2)
                confidence := confidence
                label := (label : Int) })
          | _, _, _, _ => none

/-- The body of the first loop of the variant without the early test, for row `i`: the
offset `i * clos` as in `decode_row`, then `decode_row_no_early_skip_at`. -/
def decode_row_no_early_skip (p : List ℚ) (clos : Int) (confidence_threshold : ℚ)
    (i : Nat) : Option (Option Box) :=
  if INT_MIN ≤ (i : Int) * clos ∧ (i : Int) * clos ≤ INT_MAX then
    decode_row_no_early_skip_at p clos confidence_threshold ((i : Int) * clos)
  else none

/-- The first loop of the variant without the early test, as `decode_loop`. -/
def decode_loop_no_early_skip (p : List ℚ) (clos : Int) (confidence_threshold : ℚ) :
    List Nat → List Box → Option (List Box)
  | [], boxes => some boxes
  | i :: rest, boxes =>
    match decode_row_no_early_skip p clos confidence_threshold i with
    | none => none
    | some none => decode_loop_no_early_skip p clos confidence_threshold rest boxes
    | some (some b) =>
      decode_loop_no_early_skip p clos confidence_threshold rest (boxes ++ [b])

/-- The variant of `decode_cpu` that omits the early objectness test and filters on the
combined confidence only; sort and suppression are those of `decode_cpu`. -/
def decode_cpu_no_early_skip (sort : List Box → List Box) (iou : Box → Box → ℚ)
    (predict : List ℚ) (rows clos : Int) (confidence_threshold nms_threshold : ℚ) :
    Option (List Box) :=
  match decode_loop_no_early_skip predict clos confidence_threshold
      (List.range rows.toNat) [] with
  | none => none
  | some boxes => some (nms iou nms_threshold (sort boxes))

/-- Two rows without class scores (`cols = 5`), objectness `0.1`, followed by one more
value. -/
def noClassLong : List ℚ := [0, 0, 0, 0, 1 / 10, 10, 0, 0, 0, 1 / 10, 10]

/-- One row without class scores (`cols = 5`), objectness `0.1`. -/
def noClassExact : List ℚ := [0, 0, 0, 0, 1 / 10]

/-- A buffer of `357913943 * 6 = 2147483658` values, all `0`. -/
def hugeBuffer : List ℚ := List.replicate 2147483658 0

/-- A second implementation meeting the contract of `std::sort`: merge sort by descending
confidence. -/
def merge_sort (l : List Box) : List Box :=
  l.mergeSort (fun a b => decide (a.confidence ≥ b.confidence))

/-- The call `__comp(it1, it2)` of the algorithms of libstdc++ for the iterators at
positions `i` and `j` of `v`, with the comparator of line 69. -/
def comp_at (v : List Box) (i j : Nat) : Bool :=
  match v[i]?, v[j]? with
  | some a, some b => decide (sort_comp a b)
  | _, _ => false

/-- The call `std::iter_swap(it1, it2)` for the positions `i` and `j`. -/
def iter_swap (v : List Box) (i j : Nat) : List Box :=
  match v[i]?, v[j]? with
  | some a, some b => (v.set i b).set j a
  | _, _ => v

/-- The function `std::__move_median_to_first(result, a, b, c, comp)` of libstdc++. -/
def move_median_to_first (v : List Box) (result a b c : Nat) : List Box :=
  if comp_at v a b then
    if comp_at v b c then iter_swap v result b
    else if comp_at v a c then iter_swap v result c
    else iter_swap v result a
  else if comp_at v a c then iter_swap v result a
  else if comp_at v b c then iter_swap v result c
  else iter_swap v result b

/-- The loop `while (comp(first, pivot)) ++first;` of `std::__unguarded_partition`. -/
def scan_up (v : List Box) (pivot : Nat) : Nat → Nat → Nat
  | 0, first => first
  | fuel + 1, first =>
    if comp_at v first pivot then scan_up v pivot fuel (first + 1) else first

/-- The loop `while (comp(pivot, last)) --last;` of `std::__unguarded_partition`. -/
def scan_down (v : List Box) (pivot : Nat) : Nat → Nat → Nat
  | 0, last => last
  | fuel + 1, last =>
    if comp_at v pivot last then scan_down v pivot fuel (last - 1) else last

/-- The function `std::__unguarded_partition(first, last, pivot, comp)` of libstdc++: the
vector after the swaps and the returned cut; the first argument bounds the number of
rounds of the loop `while (true)`. -/
def unguarded_partition (pivot : Nat) : Nat → List Box → Nat → Nat → List Box × Nat
  | 0, v, first, _ => (v, first)
  | fuel + 1, v, first, last =>
    let first1 := scan_up v pivot v.length first
    let last1 := scan_down v pivot v.length (last - 1)
    if first1 < last1 then
      unguarded_partition pivot fuel (iter_swap v first1 last1) (first1 + 1) last1
    else (v, first1)

/-- The function `std::__unguarded_partition_pivot(first, last, comp)` of libstdc++. -/
def unguarded_partition_pivot (v : List Box) (first last : Nat) : List Box × Nat :=
  let mid := first + (last - first) / 2
  let v1 := move_median_to_first v first (first + 1) mid (last - 1)
  unguarded_partition first v1.length v1 (first + 1) last

/-- The function `std::__push_heap(first, holeIndex, topIndex, value, comp)` of
libstdc++, the first argument bounding the rounds of its loop. -/
def push_heap (first topIndex : Nat) (value : Box) : Nat → List Box → Nat → List Box
  | 0, v, holeIndex => v.set (first + holeIndex) value
  | fuel + 1, v, holeIndex =>
    let parent := (holeIndex - 1) / 2
    match v[first + parent]? with
    | some pv =>
      if holeIndex > topIndex ∧ sort_comp pv value then
        push_heap first topIndex value fuel (v.set (first + holeIndex) pv) parent
      else v.set (first + holeIndex) value
    | none => v.set (first + holeIndex) value

/-- The first loop of `std::__adjust_heap`: the vector, `holeIndex` and `secondChild`
when it ends. -/
def adjust_heap_loop (first len : Nat) : Nat → List Box → Nat → Nat → List Box × Nat × Nat
  | 0, v, holeIndex, secondChild => (v, holeIndex, secondChild)
  | fuel + 1, v, holeIndex, secondChild =>
    if secondChild < (len - 1) / 2 then
      let sc := 2 * (secondChild + 1)
      let sc1 := if comp_at v (first + sc) (first + (sc - 1)) then sc - 1 else sc
      match v[first + sc1]? with
      | some c => adjust_heap_loop first len fuel (v.set (first + holeIndex) c) sc1 sc1
      | none => (v, holeIndex, secondChild)
    else (v, holeIndex, secondChild)

/-- The function `std::__adjust_heap(first, holeIndex, len, value, comp)` of libstdc++. -/
def adjust_heap (v : List Box) (first holeIndex len : Nat) (value : Box) : List Box :=
  let s := adjust_heap_loop first len len v holeIndex holeIndex
  let s1 : List Box × Nat :=
    if len % 2 = 0 ∧ s.2.2 = (len - 2) / 2 then
      match s.1[first + (2 * (s.2.2 + 1) - 1)]? with
      | some c => (s.1.set (first + s.2.1) c, 2 * (s.2.2 + 1) - 1)
      | none => (s.1, s.2.1)
    else (s.1, s.2.1)
  push_heap first holeIndex value len s1.1 s1.2

/-- The loop of `std::__make_heap` over the values of `parent`. -/
def make_heap_loop (first len : Nat) : List Nat → List Box → List Box
  | [], v => v
  | parent :: rest, v =>
    match v[first + parent]? with
    | some value => make_heap_loop first len rest (adjust_heap v first parent len value)
    | none => v

/-- The function `std::__make_heap(first, last, comp)` of libstdc++. -/
def make_heap (v : List Box) (first last : Nat) : List Box :=
  if last - first < 2 then v
  else make_heap_loop first (last - first) (List.range ((last - first - 2) / 2 + 1)).reverse v

/-- The loop of `std::__sort_heap` over the values of `last` after `--last`, each round
being `std::__pop_heap(first, last, last, comp)`. -/
def sort_heap_loop (first : Nat) : List Nat → List Box → List Box
  | [], v => v
  | last :: rest, v =>
    match v[last]?, v[first]? with
    | some value, some top =>
      sort_heap_loop first rest (adjust_heap (v.set last top) first 0 (last - first) value)
    | _, _ => v

/-- The call `std::__partial_sort(first, last, last, comp)` of libstdc++, a heap sort of
the range: `std::__make_heap`, then `std::__sort_heap`. -/
def heap_sort_range (v : List Box) (first last : Nat) : List Box :=
  sort_heap_loop first (List.range' (first + 1) (last - first - 1)).reverse
    (make_heap v first last)

/-- The function `std::__introsort_loop(first, last, depth_limit, comp)` of libstdc++, by
recursion on `depth_limit`, with `_S_threshold = 16`. -/
def introsort_loop : Nat → List Box → Nat → Nat → List Box
  | 0, v, first, last => if last - first > 16 then heap_sort_range v first last else v
  | depth_limit + 1, v, first, last =>
    if last - first > 16 then
      let pc := unguarded_partition_pivot v first last
      let v2 := introsort_loop depth_limit pc.1 pc.2 last
      introsort_loop depth_limit v2 first pc.2
    else v

/-- The loop of `std::__unguarded_linear_insert(last, comp)` for the value `val`. -/
def linear_insert_loop (val : Box) : Nat → List Box → Nat → List Box
  | 0, v, last => v.set last val
  | fuel + 1, v, last =>
    match (if last = 0 then none else v[last - 1]?) with
    | some next =>
      if sort_comp val next then linear_insert_loop val fuel (v.set last next) (last - 1)
      else v.set last val
    | none => v.set last val

/-- The function `std::__unguarded_linear_insert(last, comp)` of libstdc++. -/
def unguarded_linear_insert (v : List Box) (last : Nat) : List Box :=
  match v[last]? with
  | none => v
  | some val => linear_insert_loop val v.length v last

/-- The branch of `std::__insertion_sort` taken when `*i` compares before `*first`: the
value at `i` moves to `first` and the values of `[first, i)` move one place up. -/
def move_to_first (v : List Box) (first i : Nat) : List Box :=
  match v[i]? with
  | none => v
  | some val => v.take first ++ val :: (v.drop first).take (i - first) ++ v.drop (i + 1)

/-- The loop of `std::__insertion_sort(first, last, comp)` of libstdc++ over the
positions `i`. -/
def insertion_sort_loop (first : Nat) : List Nat → List Box → List Box
  | [], v => v
  | i :: rest, v =>
    insertion_sort_loop first rest
      (if comp_at v i first then move_to_first v first i else unguarded_linear_insert v i)

/-- The loop of `std::__unguarded_insertion_sort(first, last, comp)` of libstdc++. -/
def unguarded_insertion_sort_loop : List Nat → List Box → List Box
  | [], v => v
  | i :: rest, v => unguarded_insertion_sort_loop rest (unguarded_linear_insert v i)

/-- The function `std::__final_insertion_sort(first, last, comp)` of libstdc++. -/
def final_insertion_sort (v : List Box) (first last : Nat) : List Box :=
  if last - first > 16 then
    unguarded_insertion_sort_loop (List.range' (first + 16) (last - (first + 16)))
      (insertion_sort_loop first (List.range' (first + 1) 15) v)
  else insertion_sort_loop first (List.range' (first + 1) (last - (first + 1))) v

/-- The call `std::sort(boxes.begin(), boxes.end(), comp)` of line 69 as libstdc++, the
standard library of the GNU toolchain, runs it (`std::__sort` in `bits/stl_algo.h`, which
is not among the sources): `std::__introsort_loop` with depth limit `2 * __lg(n)`, then
`std::__final_insertion_sort`. -/
def libstdcxx_sort (v : List Box) : List Box :=
  if v.length = 0 then v
  else
    final_insertion_sort (introsort_loop (2 * Nat.log2 v.length) v 0 v.length) 0 v.length

/-- Seventeen rows of the same class and the same confidence `0.81`, whose boxes are far
apart: row `k` has `cx = 10 * (k + 1)`. -/
def seventeenEqual : List ℚ :=
  (List.range 17).flatMap (fun k => [10 * ((k : ℚ) + 1), 10, 4, 4, 9 / 10, 9 / 10, 1 / 10])

/-- The box of row `k` of `seventeenEqual`. -/
def equalBox (k : Nat) : Box :=
  { left := 10 * (k : ℚ) + 8, top := 8, right := 10 * (k : ℚ) + 12, bottom := 12,
    confidence := 81 / 100, label := 0 }

/-! ## Lemmas -/

theorem nms_inner_spec (iou : Box → Box → ℚ) (nt : ℚ) (ibox : Box) :
    ∀ (bpost bpre : List Box) (pre post : List Bool),
      pre.length = bpre.length → post.length = bpost.length →
      nms_inner iou nt (bpre ++ bpost) ibox (List.range' bpre.length bpost.length) (pre ++ post)
        = pre ++ List.zipWith (fun jb r => r || suppresses iou nt ibox jb) bpost post := by
  intro bpost
  induction bpost with
  | nil =>
    intro bpre pre post _ hpost
    have : post = [] := List.length_eq_zero.mp (by simpa using hpost)
    subst this
    simp [nms_inner]
  | cons b bpost ih =>
    intro bpre pre post hpre hpost
    cases post with
    | nil => simp at hpost
    | cons r post =>
      have hlen : post.length = bpost.length := by simpa using hpost
      have hget : (bpre ++ b :: bpost)[bpre.length]? = some b := by
        rw [List.getElem?_append_right (le_refl _)]; simp
      have hflag : (pre ++ r :: post).getD bpre.length false = r := by
        rw [← hpre, List.getD_eq_getElem?_getD, List.getElem?_append_right (le_refl _)]; simp
      have hset : (pre ++ r :: post).set bpre.length true = pre ++ true :: post := by
        rw [← hpre]; simp
      have ih1 := fun (r1 : Bool) => ih (bpre ++ [b]) (pre ++ [r1]) post (by simp [hpre]) hlen
      simp only [List.length_append, List.length_singleton, List.append_assoc,
        List.singleton_append] at ih1
      simp only [List.length_cons, List.range'_succ, nms_inner, hflag, hget, List.zipWith_cons_cons]
      cases r with
      | true => simpa using ih1 true
      | false =>
        by_cases h1 : ibox.label = b.label
        · by_cases h2 : iou ibox b ≥ nt
          · simp only [Bool.false_eq_true, if_false, h1, if_true, h2, hset, ih1 true]
            simp [suppresses, h1, h2]
          · simp only [Bool.false_eq_true, if_false, h1, if_true, h2, ih1 false]
            simp [suppresses, h1, h2]
        · simp only [Bool.false_eq_true, if_false, h1, ih1 false]
          simp [suppresses, h1]



theorem live_zipWith (iou : Box → Box → ℚ) (nt : ℚ) (ibox : Box) :
    ∀ (bs : List Box) (fs : List Bool),
      live bs (List.zipWith (fun jb r => r || suppresses iou nt ibox jb) bs fs)
        = (live bs fs).filter (fun c => !suppresses iou nt ibox c) := by
  intro bs
  induction bs with
  | nil => intro fs; simp [live]
  | cons b bs ih =>
    intro fs
    cases fs with
    | nil => simp [live]
    | cons r fs =>
      cases r with
      | true => simp [live, ih]
      | false =>
        cases h : suppresses iou nt ibox b <;> simp [live, ih, h]

theorem live_replicate_false :
    ∀ (bs : List Box), live bs (List.replicate bs.length false) = bs := by
  intro bs
  induction bs with
  | nil => simp [live]
  | cons b bs ih => simp [live, List.replicate_succ, ih]

theorem nms_outer_spec (iou : Box → Box → ℚ) (nt : ℚ) :
    ∀ (bpost bpre : List Box) (pre post : List Bool) (box_result : List Box),
      pre.length = bpre.length → post.length = bpost.length →
      nms_outer iou nt (bpre ++ bpost) (List.range' bpre.length bpost.length) (pre ++ post)
          box_result
        = box_result ++ greedy iou nt (live bpost post) := by
  intro bpost
  induction bpost with
  | nil =>
    intro bpre pre post box_result _ _
    simp [nms_outer, live, greedy]
  | cons b bpost ih =>
    intro bpre pre post box_result hpre hpost
    cases post with
    | nil => simp at hpost
    | cons r post =>
      have hlen : post.length = bpost.length := by simpa using hpost
      have hget : (bpre ++ b :: bpost)[bpre.length]? = some b := by
        rw [List.getElem?_append_right (le_refl _)]; simp
      have hflag : (pre ++ r :: post).getD bpre.length false = r := by
        rw [← hpre, List.getD_eq_getElem?_getD, List.getElem?_append_right (le_refl _)]; simp
      have hcount : (bpre ++ b :: bpost).length - (bpre.length + 1) = bpost.length := by
        simp only [List.length_append, List.length_cons]; omega
      have hinner := nms_inner_spec iou nt b bpost (bpre ++ [b]) (pre ++ [r]) post
        (by simp [hpre]) hlen
      simp only [List.length_append, List.length_singleton, List.append_assoc,
        List.singleton_append] at hinner
      have ih1 := fun (r1 : Bool) (post1 : List Bool) (res1 : List Box)
          (h1 : post1.length = bpost.length) =>
        ih (bpre ++ [b]) (pre ++ [r1]) post1 res1 (by simp [hpre]) h1
      simp only [List.length_append, List.length_singleton, List.append_assoc,
        List.singleton_append] at ih1
      simp only [List.length_cons, List.range'_succ, nms_outer, hflag, hget]
      cases r with
      | true => simpa [live] using ih1 true post box_result hlen
      | false =>
        simp only [Bool.false_eq_true, if_false]
        rw [hcount, hinner, ih1 false _ _ (by simp [hlen]), live_zipWith]
        simp [live, greedy]

/-- The loops of lines 72-94 compute the functional form of the greedy suppression. -/
theorem nms_eq_greedy (iou : Box → Box → ℚ) (nt : ℚ) (boxes : List Box) :
    nms iou nt boxes = greedy iou nt boxes := by
  have h := nms_outer_spec iou nt boxes [] [] (List.replicate boxes.length false) []
    rfl (by simp)
  simpa [nms, List.range_eq_range', live_replicate_false] using h

theorem greedy_nil (iou : Box → Box → ℚ) (nt : ℚ) : greedy iou nt [] = [] := by
  simp [greedy]

theorem greedy_cons (iou : Box → Box → ℚ) (nt : ℚ) (b : Box) (rest : List Box) :
    greedy iou nt (b :: rest)
      = b :: greedy iou nt (rest.filter (fun c => !suppresses iou nt b c)) := by
  simp [greedy]

theorem greedy_sublist_aux (iou : Box → Box → ℚ) (nt : ℚ) :
    ∀ (n : Nat) (l : List Box), l.length ≤ n → (greedy iou nt l).Sublist l := by
  intro n
  induction n with
  | zero =>
    intro l hl
    have : l = [] := List.length_eq_zero.mp (Nat.le_zero.mp hl)
    subst this
    simp [greedy_nil]
  | succ n ih =>
    intro l hl
    cases l with
    | nil => simp [greedy_nil]
    | cons b rest =>
      rw [greedy_cons]
      have h1 : (rest.filter (fun c => !suppresses iou nt b c)).length ≤ n :=
        le_trans (List.length_filter_le _ _) (by simpa using hl)
      exact ((ih _ h1).trans (List.filter_sublist _)).cons₂ b

theorem greedy_sublist (iou : Box → Box → ℚ) (nt : ℚ) (l : List Box) :
    (greedy iou nt l).Sublist l :=
  greedy_sublist_aux iou nt l.length l (le_refl _)

theorem greedy_pairwise_aux (iou : Box → Box → ℚ) (nt : ℚ) :
    ∀ (n : Nat) (l : List Box), l.length ≤ n →
      (greedy iou nt l).Pairwise (fun a b => suppresses iou nt a b = false) := by
  intro n
  induction n with
  | zero =>
    intro l hl
    have : l = [] := List.length_eq_zero.mp (Nat.le_zero.mp hl)
    subst this
    simp [greedy_nil]
  | succ n ih =>
    intro l hl
    cases l with
    | nil => simp [greedy_nil]
    | cons b rest =>
      rw [greedy_cons]
      have h1 : (rest.filter (fun c => !suppresses iou nt b c)).length ≤ n :=
        le_trans (List.length_filter_le _ _) (by simpa using hl)
      refine List.Pairwise.cons ?_ (ih _ h1)
      intro c hc
      have hc1 := (greedy_sublist iou nt _).subset hc
      simpa using (List.mem_filter.mp hc1).2

theorem greedy_pairwise (iou : Box → Box → ℚ) (nt : ℚ) (l : List Box) :
    (greedy iou nt l).Pairwise (fun a b => suppresses iou nt a b = false) :=
  greedy_pairwise_aux iou nt l.length l (le_refl _)

theorem greedy_eq_self (iou : Box → Box → ℚ) (nt : ℚ) :
    ∀ (l : List Box), l.Pairwise (fun a b => suppresses iou nt a b = false) →
      greedy iou nt l = l := by
  intro l
  induction l with
  | nil => intro _; exact greedy_nil iou nt
  | cons b rest ih =>
    intro h
    rw [greedy_cons]
    have hb := (List.pairwise_cons.mp h).1
    have hf : rest.filter (fun c => !suppresses iou nt b c) = rest := by
      apply List.filter_eq_self.mpr
      intro c hc
      simp [hb c hc]
    rw [hf, ih (List.pairwise_cons.mp h).2]

theorem suppresses_eq_false (iou : Box → Box → ℚ) (nt : ℚ) (a b : Box) :
    suppresses iou nt a b = false ↔ (a.label = b.label → iou a b < nt) := by
  unfold suppresses
  by_cases h1 : a.label = b.label <;> simp [h1]

theorem pairwise_getElem_some {α : Type} {R : α → α → Prop} {l : List α} (h : l.Pairwise R)
    (i j : Nat) (a b : α) (hij : i < j) (ha : l[i]? = some a) (hb : l[j]? = some b) :
    R a b := by
  obtain ⟨hi, rfl⟩ := List.getElem?_eq_some.mp ha
  obtain ⟨hj, rfl⟩ := List.getElem?_eq_some.mp hb
  exact List.pairwise_iff_getElem.mp h i j hi hj hij

theorem insertion_sort_isStdSort : IsStdSort insertion_sort := by
  intro l
  haveI : IsTotal Box (fun a b => a.confidence ≥ b.confidence) :=
    ⟨fun a b => le_total b.confidence a.confidence⟩
  haveI : IsTrans Box (fun a b => a.confidence ≥ b.confidence) :=
    ⟨fun a b c hab hbc => ge_trans hab hbc⟩
  refine ⟨List.perm_insertionSort _ l, ?_⟩
  have h := List.sorted_insertionSort (fun a b : Box => a.confidence ≥ b.confidence) l
  have h2 : (insertion_sort l).Pairwise (fun a b : Box => a.confidence ≥ b.confidence) := h
  refine List.Pairwise.imp ?_ h2
  intro a b hab
  exact not_lt.mpr hab

/-- A row that does not fail had its offset `i * clos` inside the range of `int` and was
decoded at that offset. -/
theorem decode_row_eq_at {p : List ℚ} {clos : Int} {ct : ℚ} {i : Nat} {x : Option Box}
    (h : decode_row p clos ct i = some x) :
    (INT_MIN ≤ (i : Int) * clos ∧ (i : Int) * clos ≤ INT_MAX) ∧
      decode_row_at p clos ct ((i : Int) * clos) = some x := by
  unfold decode_row at h
  split at h
  · rename_i hrange
    exact ⟨hrange, h⟩
  · exact absurd h (by simp)

theorem decode_row_of_range {p : List ℚ} {clos : Int} {ct : ℚ} {i : Nat}
    (h : INT_MIN ≤ (i : Int) * clos ∧ (i : Int) * clos ≤ INT_MAX) :
    decode_row p clos ct i = decode_row_at p clos ct ((i : Int) * clos) := by
  unfold decode_row
  rw [if_pos h]

theorem decode_row_range_of_ne_none {p : List ℚ} {clos : Int} {ct : ℚ} {i : Nat}
    (h : decode_row p clos ct i ≠ none) :
    INT_MIN ≤ (i : Int) * clos ∧ (i : Int) * clos ≤ INT_MAX := by
  by_contra hrange
  apply h
  unfold decode_row
  rw [if_neg hrange]

/-- What a row that yields a box went through: the reads, both threshold tests, the
fields of the box. -/
theorem decode_row_some {p : List ℚ} {clos : Int} {ct : ℚ} {i : Nat} {b : Box}
    (h : decode_row p clos ct i = some (some b)) :
    ∃ (objness prob cx cy width height : ℚ) (label : Nat),
      readAt p ((i : Int) * clos + 4) = some objness ∧ ¬ objness < ct ∧
      max_element p ((i : Int) * clos + 5) (clos - 5) = some label ∧
      readAt p ((i : Int) * clos + 5 + label) = some prob ∧ ¬ prob * objness < ct ∧
      readAt p ((i : Int) * clos + 0) = some cx ∧ readAt p ((i : Int) * clos + 1) = some cy ∧
      readAt p ((i : Int) * clos + 2) = some width ∧
      readAt p ((i : Int) * clos + 3) = some height ∧
      b = { left := cx - width * (1 / 2), top := cy - height * (1 / 2),
            right := cx + width * (1 / 2), bottom := cy + height * (1 / 2),
            confidence := prob * objness, label := (label : Int) } := by
  replace h := (decode_row_eq_at h).2
  unfold decode_row_at at h
  simp only at h
  split at h
  · exact absurd h (by simp)
  · rename_i objness hobj
    split at h
    · exact absurd h (by simp)
    · rename_i hthr
      split at h
      · exact absurd h (by simp)
      · rename_i label hlab
        split at h
        · exact absurd h (by simp)
        · rename_i prob hprob
          split at h
          · exact absurd h (by simp)
          · rename_i hconf
            split at h
            · rename_i cx cy width height hcx hcy hw hh
              refine ⟨objness, prob, cx, cy, width, height, label, hobj, hthr, hlab, hprob,
                hconf, hcx, hcy, hw, hh, ?_⟩
              simp only [Option.some.injEq] at h
              exact h.symm
            · exact absurd h (by simp)

theorem decode_loop_some (p : List ℚ) (clos : Int) (ct : ℚ) :
    ∀ (is : List Nat) (acc res : List Box), decode_loop p clos ct is acc = some res →
      res = acc ++ is.filterMap (fun i => (decode_row p clos ct i).join) := by
  intro is
  induction is with
  | nil =>
    intro acc res h
    simp only [decode_loop, Option.some.injEq] at h
    simp [h]
  | cons i rest ih =>
    intro acc res h
    unfold decode_loop at h
    split at h
    · exact absurd h (by simp)
    · rename_i hrow
      rw [ih acc res h]
      simp [List.filterMap_cons, hrow]
    · rename_i b hrow
      rw [ih _ res h]
      simp [List.filterMap_cons, hrow]

theorem decode_loop_of_rows (p : List ℚ) (clos : Int) (ct : ℚ) :
    ∀ (is : List Nat) (acc : List Box), (∀ i ∈ is, decode_row p clos ct i ≠ none) →
      ∃ res, decode_loop p clos ct is acc = some res := by
  intro is
  induction is with
  | nil => intro acc _; exact ⟨acc, rfl⟩
  | cons i rest ih =>
    intro acc h
    have hi := h i (List.mem_cons_self _ _)
    have hrest : ∀ j ∈ rest, decode_row p clos ct j ≠ none :=
      fun j hj => h j (List.mem_cons_of_mem _ hj)
    unfold decode_loop
    split
    · rename_i hrow; exact absurd hrow hi
    · exact ih acc hrest
    · exact ih _ hrest

/-- Every candidate comes from a row below `rows` that yields it. -/
theorem mem_candidates {p : List ℚ} {rows clos : Int} {ct : ℚ} {boxes : List Box}
    (h : decode_candidates p rows clos ct = some boxes) {b : Box} (hb : b ∈ boxes) :
    ∃ i : Nat, (i : Int) < rows ∧ decode_row p clos ct i = some (some b) := by
  have h1 := decode_loop_some p clos ct _ _ _ h
  rw [h1, List.nil_append, List.mem_filterMap] at hb
  obtain ⟨i, hi, hrow⟩ := hb
  refine ⟨i, ?_, ?_⟩
  · have := List.mem_range.mp hi
    omega
  · cases hr : decode_row p clos ct i with
    | none => simp [hr] at hrow
    | some o =>
      cases o with
      | none => simp [hr] at hrow
      | some c => simp [hr] at hrow; rw [hrow]

theorem decode_cpu_some {sort : List Box → List Box} {iou : Box → Box → ℚ} {p : List ℚ}
    {rows clos : Int} {ct nt : ℚ} {res : List Box}
    (h : decode_cpu sort iou p rows clos ct nt = some res) :
    ∃ boxes, decode_candidates p rows clos ct = some boxes ∧
      res = greedy iou nt (sort boxes) := by
  unfold decode_cpu at h
  split at h
  · exact absurd h (by simp)
  · rename_i boxes hb
    refine ⟨boxes, hb, ?_⟩
    simp only [Option.some.injEq] at h
    rw [← h, nms_eq_greedy]

theorem readAt_some_of_lt (p : List ℚ) (idx : Int) (h0 : 0 ≤ idx)
    (h1 : idx < (p.length : Int)) : ∃ v, readAt p idx = some v := by
  have hlt : idx.toNat < p.length := by omega
  refine ⟨p[idx.toNat], ?_⟩
  simp [readAt, h0, List.getElem?_eq_getElem hlt]

theorem max_element_loop_some (p : List ℚ) (pclass : Int) (n : Nat)
    (hread : ∀ k : Nat, k < n → ∃ v, readAt p (pclass + k) = some v) :
    ∀ (fs : List Nat) (largest : Nat), (∀ f ∈ fs, f < n) → largest < n →
      ∃ l, max_element_loop p pclass fs largest = some l ∧ l < n := by
  intro fs
  induction fs with
  | nil => intro largest _ hl; exact ⟨largest, rfl, hl⟩
  | cons f rest ih =>
    intro largest hfs hl
    have hf : f < n := hfs f (List.mem_cons_self _ _)
    obtain ⟨a, ha⟩ := hread largest hl
    obtain ⟨b, hb⟩ := hread f hf
    have hrest : ∀ g ∈ rest, g < n := fun g hg => hfs g (List.mem_cons_of_mem _ hg)
    simp only [max_element_loop, ha, hb]
    by_cases hab : a < b
    · simpa [hab] using ih f hrest hf
    · simpa [hab] using ih largest hrest hl

theorem max_element_some (p : List ℚ) (pclass : Int) (num_classes : Int)
    (hn : 1 ≤ num_classes)
    (hread : ∀ k : Nat, (k : Int) < num_classes → ∃ v, readAt p (pclass + k) = some v) :
    ∃ l : Nat, max_element p pclass num_classes = some l ∧ (l : Int) < num_classes := by
  have h1 : ¬ num_classes < 0 := by omega
  have h2 : ¬ num_classes = 0 := by omega
  simp only [max_element, h1, h2, if_false]
  obtain ⟨l, hl, hlt⟩ := max_element_loop_some p pclass num_classes.toNat
    (fun k hk => hread k (by omega))
    (List.range' 1 (num_classes.toNat - 1)) 0
    (by
      intro f hf
      have := List.mem_range'_1.mp hf
      omega)
    (by omega)
  exact ⟨l, hl, by omega⟩

/-- With at least one class, a buffer of at least `rows * clos` values and the offset of
the last row inside the range of `int`, no row below `rows` overflows or reads outside the
buffer. -/
theorem decode_row_ne_none (p : List ℚ) (rows clos : Int) (ct : ℚ) (i : Nat)
    (hcols : 6 ≤ clos) (hlen : rows * clos ≤ (p.length : Int))
    (hint : (rows - 1) * clos ≤ INT_MAX) (hi : (i : Int) < rows) :
    decode_row p clos ct i ≠ none := by
  have hnext : ((i : Int) + 1) * clos ≤ rows * clos :=
    mul_le_mul_of_nonneg_right (by omega) (by omega)
  have hbase : 0 ≤ (i : Int) * clos := mul_nonneg (by omega) (by omega)
  have hlast : (i : Int) * clos ≤ (rows - 1) * clos :=
    mul_le_mul_of_nonneg_right (by omega) (by omega)
  have hrange : INT_MIN ≤ (i : Int) * clos ∧ (i : Int) * clos ≤ INT_MAX :=
    ⟨le_trans (by unfold INT_MIN; omega) hbase, le_trans hlast hint⟩
  have hread : ∀ k : Int, 0 ≤ k → k < clos → ∃ v, readAt p ((i : Int) * clos + k) = some v := by
    intro k hk0 hk1
    apply readAt_some_of_lt
    · omega
    · have : ((i : Int) + 1) * clos = (i : Int) * clos + clos := by ring
      omega
  obtain ⟨objness, hobj⟩ := hread 4 (by omega) (by omega)
  obtain ⟨cx, hcx⟩ := hread 0 (by omega) (by omega)
  obtain ⟨cy, hcy⟩ := hread 1 (by omega) (by omega)
  obtain ⟨w, hw⟩ := hread 2 (by omega) (by omega)
  obtain ⟨h, hh⟩ := hread 3 (by omega) (by omega)
  obtain ⟨label, hlabel, hlt⟩ := max_element_some p ((i : Int) * clos + 5) (clos - 5)
    (by omega)
    (fun k hk => by
      have := hread (5 + k) (by omega) (by omega)
      rwa [← add_assoc] at this)
  obtain ⟨prob, hprob⟩ := hread (5 + label) (by omega) (by omega)
  rw [← add_assoc] at hprob
  rw [decode_row_of_range hrange]
  unfold decode_row_at
  simp only [hobj, hlabel, hprob, hcx, hcy, hw, hh]
  split
  · simp
  · split <;> simp

theorem gpu_loop_length (to_int : ℚ → Int) (out : List ℚ) :
    ∀ (is : List Nat) (acc res : List Box), gpu_loop to_int out is acc = some res →
      res.length ≤ acc.length + is.length := by
  intro is
  induction is with
  | nil =>
    intro acc res h
    simp only [gpu_loop, Option.some.injEq] at h
    simp [h]
  | cons i rest ih =>
    intro acc res h
    unfold gpu_loop at h
    split at h
    · exact absurd h (by simp)
    · have := ih acc res h
      simp only [List.length_cons]
      omega
    · have := ih _ res h
      rw [List.length_append, List.length_singleton] at this
      simp only [List.length_cons]
      omega

theorem gpu_loop_of_records (to_int : ℚ → Int) (out : List ℚ) :
    ∀ (is : List Nat) (acc : List Box), (∀ i ∈ is, gpu_record to_int out i ≠ none) →
      ∃ res, gpu_loop to_int out is acc = some res := by
  intro is
  induction is with
  | nil => intro acc _; exact ⟨acc, rfl⟩
  | cons i rest ih =>
    intro acc h
    have hi := h i (List.mem_cons_self _ _)
    have hrest : ∀ j ∈ rest, gpu_record to_int out j ≠ none :=
      fun j hj => h j (List.mem_cons_of_mem _ hj)
    unfold gpu_loop
    split
    · rename_i hrec; exact absurd hrec hi
    · exact ih acc hrest
    · exact ih _ hrest

/-- In a buffer of `1 + max_objects * NUM_BOX_ELEMENT` values, each of the seven fields of
a record below `max_objects` is inside the buffer. -/
theorem gpu_field_in_bounds (out : List ℚ)
    (hlen : (out.length : Int) = 1 + max_objects * NUM_BOX_ELEMENT) (i k : Nat)
    (hi : (i : Int) < max_objects) (hk : k ≤ 6) :
    ∃ v, readAt out (1 + NUM_BOX_ELEMENT * (i : Int) + (k : Int)) = some v := by
  unfold max_objects NUM_BOX_ELEMENT at *
  apply readAt_some_of_lt <;> omega

theorem gpu_record_ne_none (to_int : ℚ → Int) (out : List ℚ)
    (hlen : (out.length : Int) = 1 + max_objects * NUM_BOX_ELEMENT) (i : Nat)
    (hi : (i : Int) < max_objects) : gpu_record to_int out i ≠ none := by
  obtain ⟨v0, h0⟩ := gpu_field_in_bounds out hlen i 0 hi (by omega)
  obtain ⟨v1, h1⟩ := gpu_field_in_bounds out hlen i 1 hi (by omega)
  obtain ⟨v2, h2⟩ := gpu_field_in_bounds out hlen i 2 hi (by omega)
  obtain ⟨v3, h3⟩ := gpu_field_in_bounds out hlen i 3 hi (by omega)
  obtain ⟨v4, h4⟩ := gpu_field_in_bounds out hlen i 4 hi (by omega)
  obtain ⟨v5, h5⟩ := gpu_field_in_bounds out hlen i 5 hi (by omega)
  obtain ⟨v6, h6⟩ := gpu_field_in_bounds out hlen i 6 hi (by omega)
  simp only [Nat.cast_ofNat, Nat.cast_zero, Nat.cast_one] at h0 h1 h2 h3 h4 h5 h6
  unfold gpu_record
  simp only [h0, h1, h2, h3, h4, h5, h6]
  split <;> simp

theorem candidates_length {p : List ℚ} {rows clos : Int} {ct : ℚ} {boxes : List Box}
    (h : decode_candidates p rows clos ct = some boxes) :
    boxes.length = (qualifying_rows p rows clos ct).length := by
  have h1 := decode_loop_some p clos ct _ _ _ h
  rw [h1, List.nil_append, List.length_filterMap_eq_countP, List.countP_eq_length_filter]
  unfold qualifying_rows
  congr 1
  apply List.filter_congr
  intro i _
  cases decode_row p clos ct i with
  | none => rfl
  | some o => cases o <;> rfl

theorem perm_pair {l : List Box} {a b : Box} (h : l.Perm [a, b]) :
    l = [a, b] ∨ l = [b, a] := by
  have hlen : l.length = 2 := by simpa using h.length_eq
  match l, hlen with
  | [x, y], _ =>
    have hx : x ∈ [a, b] := h.subset (List.mem_cons_self _ _)
    simp only [List.mem_cons, List.mem_singleton, List.not_mem_nil, or_false] at hx
    rcases hx with rfl | rfl
    · have := h.cons_inv
      rw [List.perm_singleton] at this
      left; rw [this]
    · have h2 : [x, y].Perm [x, a] := h.trans (List.Perm.swap x a [])
      have := h2.cons_inv
      rw [List.perm_singleton] at this
      right; rw [this]

theorem greedy_singleton (iou : Box → Box → ℚ) (nt : ℚ) (a : Box) :
    greedy iou nt [a] = [a] := by
  simp [greedy_cons, greedy_nil]

theorem greedy_pair_suppressed (iou : Box → Box → ℚ) (nt : ℚ) (a b : Box)
    (hlab : a.label = b.label) (hiou : iou a b ≥ nt) : greedy iou nt [a, b] = [a] := by
  have hs : suppresses iou nt a b = true := by simp [suppresses, hlab, hiou]
  simp [greedy_cons, greedy_nil, hs]

theorem max_element_loop_inv (p : List ℚ) (pclass : Int) :
    ∀ (m s largest l : Nat),
      max_element_loop p pclass (List.range' s m) largest = some l →
      FirstMaxBelow p pclass largest s → FirstMaxBelow p pclass l (s + m) := by
  intro m
  induction m with
  | zero =>
    intro s largest l h hinv
    simp only [List.range'_zero, max_element_loop, Option.some.injEq] at h
    subst h
    simpa using hinv
  | succ m ih =>
    intro s largest l h hinv
    rw [List.range'_succ] at h
    unfold max_element_loop at h
    split at h
    · rename_i a b ha hb
      have hnext : FirstMaxBelow p pclass (if a < b then s else largest) (s + 1) := by
        obtain ⟨hlt, vl, hvl, hall, hbefore⟩ := hinv
        have hvla : vl = a := by rw [hvl] at ha; exact Option.some.inj ha
        subst hvla
        by_cases hab : vl < b
        · simp only [hab, if_true]
          refine ⟨by omega, b, hb, ?_, ?_⟩
          · intro k hk
            by_cases hks : k = s
            · subst hks; exact ⟨b, hb, le_refl _⟩
            · obtain ⟨v, hv, hle⟩ := hall k (by omega)
              exact ⟨v, hv, le_of_lt (lt_of_le_of_lt hle hab)⟩
          · intro k hk
            obtain ⟨v, hv, hle⟩ := hall k hk
            exact ⟨v, hv, lt_of_le_of_lt hle hab⟩
        · simp only [hab, if_false]
          refine ⟨by omega, vl, hvl, ?_, hbefore⟩
          intro k hk
          by_cases hks : k = s
          · subst hks; exact ⟨b, hb, not_lt.mp hab⟩
          · exact hall k (by omega)
      have := ih (s + 1) _ l h hnext
      rwa [show s + (m + 1) = s + 1 + m by omega]
    · exact absurd h (by simp)

/-- What `std::max_element` returns on a range of at least one class, `prob` being the
value then read at the returned offset: the first offset of the greatest value. -/
theorem max_element_argmax (p : List ℚ) (pclass : Int) (num_classes : Int) (l : Nat)
    (prob : ℚ) (hn : 1 ≤ num_classes) (h : max_element p pclass num_classes = some l)
    (hp : readAt p (pclass + l) = some prob) :
    (l : Int) < num_classes ∧
      (∀ k : Nat, (k : Int) < num_classes →
        ∃ v, readAt p (pclass + k) = some v ∧ v ≤ prob) ∧
      (∀ k : Nat, k < l → ∃ v, readAt p (pclass + k) = some v ∧ v < prob) := by
  have h1 : ¬ num_classes < 0 := by omega
  have h2 : ¬ num_classes = 0 := by omega
  simp only [max_element, h1, h2, if_false] at h
  have hfinal : FirstMaxBelow p pclass l (1 + (num_classes.toNat - 1)) := by
    cases hm : num_classes.toNat - 1 with
    | zero =>
      rw [hm] at h
      simp only [List.range'_zero, max_element_loop, Option.some.injEq] at h
      subst h
      refine ⟨by omega, prob, hp, ?_, ?_⟩
      · intro k hk
        have hk0 : k = 0 := by omega
        subst hk0
        exact ⟨prob, hp, le_refl _⟩
      · intro k hk
        omega
    | succ m =>
      rw [hm] at h
      have h0 : ∃ a, readAt p (pclass + ((0 : Nat) : Int)) = some a := by
        rw [List.range'_succ] at h
        unfold max_element_loop at h
        split at h
        · rename_i a b ha hb
          exact ⟨a, ha⟩
        · exact absurd h (by simp)
      obtain ⟨a, ha⟩ := h0
      apply max_element_loop_inv p pclass (m + 1) 1 0 l h
      refine ⟨by omega, a, ha, ?_, ?_⟩
      · intro k hk
        have hk0 : k = 0 := by omega
        subst hk0
        exact ⟨a, ha, le_refl _⟩
      · intro k hk
        omega
  obtain ⟨hlt, vl, hvl, hall, hbefore⟩ := hfinal
  have hvp : vl = prob := by rw [hvl] at hp; exact Option.some.inj hp
  subst hvp
  refine ⟨by omega, ?_, hbefore⟩
  intro k hk
  exact hall k (by omega)

theorem decode_row_first_max {p : List ℚ} {cols : Int} {ct : ℚ} {r : Nat} {b : Box}
    (hC : 1 ≤ cols - 5) (h : decode_row p cols ct r = some (some b)) :
    RowFirstMax p cols r b := by
  obtain ⟨objness, prob, cx, cy, width, height, label, hobj, _, hlab, hprob, _, _, _, _, _,
    hb⟩ := decode_row_some h
  obtain ⟨hlt, hall, hbefore⟩ :=
    max_element_argmax p ((r : Int) * cols + 5) (cols - 5) label prob hC hlab hprob
  refine ⟨label, objness, prob, ?_, hlt, hobj, hprob, ?_, hall, hbefore⟩
  · rw [hb]
  · rw [hb]

/-- Every returned box is the box of a row below `rows`. -/
theorem mem_result_row {sort : List Box → List Box} (hsort : IsStdSort sort)
    {iou : Box → Box → ℚ} {p : List ℚ} {rows cols : Int} {ct nt : ℚ} {res : List Box}
    (h : decode_cpu sort iou p rows cols ct nt = some res) {b : Box} (hb : b ∈ res) :
    ∃ r : Nat, (r : Int) < rows ∧ decode_row p cols ct r = some (some b) := by
  obtain ⟨boxes, hboxes, hres⟩ := decode_cpu_some h
  have h1 : b ∈ sort boxes := by
    rw [hres] at hb
    exact (greedy_sublist iou nt _).subset hb
  exact mem_candidates hboxes ((hsort boxes).1.subset h1)

theorem decode_row_passes_iff (p : List ℚ) (cols : Int) (ct : ℚ) (r : Nat)
    (hne : decode_row p cols ct r ≠ none) :
    (∃ b, decode_row p cols ct r = some (some b)) ↔ RowPasses p cols ct r := by
  constructor
  · rintro ⟨b, hb⟩
    obtain ⟨objness, prob, cx, cy, width, height, label, hobj, hthr, hlab, hprob, hconf, _⟩ :=
      decode_row_some hb
    exact ⟨objness, prob, label, hobj, not_lt.mp hthr, hlab, hprob, not_lt.mp hconf⟩
  · rintro ⟨objness, prob, label, hobj, hthr, hlab, hprob, hconf⟩
    have h1 : ¬ objness < ct := not_lt.mpr hthr
    have h2 : ¬ prob * objness < ct := not_lt.mpr hconf
    have hrange := decode_row_range_of_ne_none hne
    rw [decode_row_of_range hrange] at hne ⊢
    unfold decode_row_at at hne ⊢
    simp only [hobj, h1, if_false, hlab, hprob, h2] at hne ⊢
    split
    · exact ⟨_, rfl⟩
    · rename_i hgeo
      split at hne
      · rename_i cx cy width height hcx hcy hw hh
        exact (hgeo _ _ _ _ hcx hcy hw hh).elim
      · exact absurd rfl hne

theorem decode_loop_rows_ne_none (p : List ℚ) (clos : Int) (ct : ℚ) :
    ∀ (is : List Nat) (acc res : List Box), decode_loop p clos ct is acc = some res →
      ∀ i ∈ is, decode_row p clos ct i ≠ none := by
  intro is
  induction is with
  | nil => intro acc res _ i hi; simp at hi
  | cons j rest ih =>
    intro acc res h i hi
    unfold decode_loop at h
    split at h
    · exact absurd h (by simp)
    · rename_i hrow
      rcases List.mem_cons.mp hi with rfl | hi'
      · rw [hrow]; simp
      · exact ih _ _ h i hi'
    · rename_i b hrow
      rcases List.mem_cons.mp hi with rfl | hi'
      · rw [hrow]; simp
      · exact ih _ _ h i hi'

theorem greedy_snoc_aux (iou : Box → Box → ℚ) (nt : ℚ) (c : Box) :
    ∀ (n : Nat) (l : List Box), l.length ≤ n →
      greedy iou nt (l ++ [c]) = greedy iou nt l ++
        (if (greedy iou nt l).any (fun w => suppresses iou nt w c) then [] else [c]) := by
  intro n
  induction n with
  | zero =>
    intro l hl
    have : l = [] := List.length_eq_zero.mp (Nat.le_zero.mp hl)
    subst this
    simp [greedy_cons, greedy_nil]
  | succ n ih =>
    intro l hl
    cases l with
    | nil => simp [greedy_cons, greedy_nil]
    | cons b rest =>
      have h1 : (rest.filter (fun x => !suppresses iou nt b x)).length ≤ n :=
        le_trans (List.length_filter_le _ _) (by simpa using hl)
      rw [List.cons_append, greedy_cons, greedy_cons, List.filter_append]
      cases hs : suppresses iou nt b c with
      | true =>
        simp [hs]
      | false =>
        have hf : List.filter (fun x => !suppresses iou nt b x) [c] = [c] := by
          simp [hs]
        rw [hf, ih _ h1]
        simp [hs]

/-- The suppression accepts the boxes one after the other: a box is accepted exactly when
no box accepted before it removes it. -/
theorem greedy_snoc (iou : Box → Box → ℚ) (nt : ℚ) (l : List Box) (c : Box) :
    greedy iou nt (l ++ [c]) = greedy iou nt l ++
      (if (greedy iou nt l).any (fun w => suppresses iou nt w c) then [] else [c]) :=
  greedy_snoc_aux iou nt c l.length l (le_refl _)

theorem greedy_initial_segment (iou : Box → Box → ℚ) (nt : ℚ) :
    ∀ (post pre : List Box), greedy iou nt pre <+: greedy iou nt (pre ++ post) := by
  intro post
  induction post with
  | nil => intro pre; simp
  | cons c post ih =>
    intro pre
    have h1 : greedy iou nt pre <+: greedy iou nt (pre ++ [c]) := by
      rw [greedy_snoc]
      exact List.prefix_append _ _
    have h2 := ih (pre ++ [c])
    rw [List.append_assoc, List.singleton_append] at h2
    exact h1.trans h2

/-- At each position of the list handed to the suppression, the box `c` found there is
either accepted right after the boxes accepted before it, or removed by one of those. -/
theorem greedy_justified (iou : Box → Box → ℚ) (nt : ℚ) (pre post : List Box) (c : Box) :
    (∃ tail, greedy iou nt (pre ++ c :: post) = greedy iou nt pre ++ c :: tail) ∨
      (∃ w, w ∈ greedy iou nt pre ∧ suppresses iou nt w c = true) := by
  have hpre := greedy_initial_segment iou nt post (pre ++ [c])
  rw [List.append_assoc, List.singleton_append, greedy_snoc] at hpre
  by_cases hany : (greedy iou nt pre).any (fun w => suppresses iou nt w c) = true
  · right
    obtain ⟨w, hw, hs⟩ := List.any_eq_true.mp hany
    exact ⟨w, hw, hs⟩
  · left
    have hany2 : (greedy iou nt pre).any (fun w => suppresses iou nt w c) = false := by
      simpa using hany
    rw [hany2] at hpre
    obtain ⟨tail, htail⟩ := hpre
    exact ⟨tail, by rw [← htail]; simp⟩

theorem suppresses_eq_true (iou : Box → Box → ℚ) (nt : ℚ) (a b : Box) :
    suppresses iou nt a b = true ↔ (a.label = b.label ∧ iou a b ≥ nt) := by
  simp [suppresses]

theorem merge_sort_isStdSort : IsStdSort merge_sort := by
  intro l
  refine ⟨List.mergeSort_perm l _, ?_⟩
  have h : (merge_sort l).Pairwise
      (fun a b : Box => decide (a.confidence ≥ b.confidence) = true) :=
    List.sorted_mergeSort
      (fun a b c hab hbc => by
        simp only [decide_eq_true_eq] at hab hbc ⊢
        exact ge_trans hab hbc)
      (fun a b => by
        simp only [Bool.or_eq_true, decide_eq_true_eq]
        exact le_total b.confidence a.confidence) l
  refine List.Pairwise.imp ?_ h
  intro a b hab
  simp only [decide_eq_true_eq] at hab
  exact not_lt.mpr hab

/-- A list of boxes of pairwise different confidences has one arrangement only that meets
the contract of `std::sort`. -/
theorem std_sort_unique (sortA sortB : List Box → List Box) (hA : IsStdSort sortA)
    (hB : IsStdSort sortB) (l : List Box)
    (hdist : l.Pairwise (fun a b => a.confidence ≠ b.confidence)) :
    sortA l = sortB l := by
  haveI : IsAntisymm Box (fun a b => a.confidence > b.confidence) :=
    ⟨fun a b hab hba => absurd hab (not_lt.mpr (le_of_lt hba))⟩
  have strict : ∀ (sort : List Box → List Box), IsStdSort sort →
      (sort l).Pairwise (fun a b => a.confidence > b.confidence) := by
    intro sort hs
    have h1 := (hs l).2
    have h2 : (sort l).Pairwise (fun a b => a.confidence ≠ b.confidence) :=
      hdist.perm (hs l).1.symm (fun h => Ne.symm h)
    exact (h1.and h2).imp (fun {a b} h => lt_of_le_of_ne (not_lt.mp h.1) (Ne.symm h.2))
  exact List.eq_of_perm_of_sorted ((hA l).1.trans (hB l).1.symm) (strict sortA hA)
    (strict sortB hB)

theorem readAt_getD (p : List ℚ) (idx : Int) (v : ℚ) (h : readAt p idx = some v)
    (n : Nat) (hn : idx = (n : Int)) : p.getD n 0 = v := by
  subst hn
  simp only [readAt, Int.toNat_ofNat] at h
  split at h
  · rw [List.getD_eq_getElem?_getD, h]; rfl
  · exact absurd h (by simp)

theorem gpu_record_spec (to_int : ℚ → Int) (out : List ℚ) (i : Nat) (x : Option Box)
    (h : gpu_record to_int out i = some x) :
    x = if to_int (gpu_field out i 6) ≠ 0 then
        some { left := gpu_field out i 0, top := gpu_field out i 1,
               right := gpu_field out i 2, bottom := gpu_field out i 3,
               confidence := gpu_field out i 4, label := to_int (gpu_field out i 5) }
      else none := by
  unfold gpu_record at h
  simp only at h
  split at h
  · exact absurd h (by simp)
  · rename_i keep hkeep
    have h6 : gpu_field out i 6 = keep :=
      readAt_getD out _ keep hkeep (1 + 7 * i + 6) (by unfold NUM_BOX_ELEMENT; push_cast; ring)
    rw [h6]
    split at h
    · rename_i hnz
      split at h
      · rename_i l t r b c lab hl ht hr hb hc hlab
        have e0 : gpu_field out i 0 = l :=
          readAt_getD out _ l hl (1 + 7 * i + 0) (by unfold NUM_BOX_ELEMENT; push_cast; ring)
        have e1 : gpu_field out i 1 = t :=
          readAt_getD out _ t ht (1 + 7 * i + 1) (by unfold NUM_BOX_ELEMENT; push_cast; ring)
        have e2 : gpu_field out i 2 = r :=
          readAt_getD out _ r hr (1 + 7 * i + 2) (by unfold NUM_BOX_ELEMENT; push_cast; ring)
        have e3 : gpu_field out i 3 = b :=
          readAt_getD out _ b hb (1 + 7 * i + 3) (by unfold NUM_BOX_ELEMENT; push_cast; ring)
        have e4 : gpu_field out i 4 = c :=
          readAt_getD out _ c hc (1 + 7 * i + 4) (by unfold NUM_BOX_ELEMENT; push_cast; ring)
        have e5 : gpu_field out i 5 = lab :=
          readAt_getD out _ lab hlab (1 + 7 * i + 5)
            (by unfold NUM_BOX_ELEMENT; push_cast; ring)
        rw [e0, e1, e2, e3, e4, e5, if_pos hnz]
        exact (Option.some.inj h).symm
      · exact absurd h (by simp)
    · rename_i hz
      rw [if_neg hz]
      exact (Option.some.inj h).symm

theorem gpu_loop_spec (to_int : ℚ → Int) (out : List ℚ) :
    ∀ (is : List Nat) (acc res : List Box), gpu_loop to_int out is acc = some res →
      res = acc ++ (is.filter (fun i => decide (to_int (gpu_field out i 6) ≠ 0))).map
        (fun i =>
          { left := gpu_field out i 0, top := gpu_field out i 1,
            right := gpu_field out i 2, bottom := gpu_field out i 3,
            confidence := gpu_field out i 4, label := to_int (gpu_field out i 5) }) := by
  intro is
  induction is with
  | nil =>
    intro acc res h
    simp only [gpu_loop, Option.some.injEq] at h
    simp [h]
  | cons i rest ih =>
    intro acc res h
    unfold gpu_loop at h
    split at h
    · exact absurd h (by simp)
    · rename_i hrec
      have hx := gpu_record_spec to_int out i none hrec
      have hz : ¬ to_int (gpu_field out i 6) ≠ 0 := by
        intro hnz
        rw [if_pos hnz] at hx
        exact absurd hx (by simp)
      rw [ih acc res h, List.filter_cons_of_neg (by simpa using hz)]
    · rename_i b hrec
      have hx := gpu_record_spec to_int out i (some b) hrec
      have hnz : to_int (gpu_field out i 6) ≠ 0 := by
        intro hz
        rw [if_neg (not_not.mpr hz)] at hx
        exact absurd hx (by simp)
      rw [if_pos hnz] at hx
      rw [ih _ res h, List.filter_cons_of_pos (by simpa using hnz), List.map_cons,
        List.append_assoc, List.singleton_append, Option.some.inj hx]

theorem decode_gpu_host_some (to_int : ℚ → Int) (out : List ℚ)
    (hlen : (out.length : Int) = 1 + max_objects * NUM_BOX_ELEMENT) :
    ∃ res, decode_gpu_host to_int out = some res := by
  obtain ⟨counter, hc⟩ := readAt_some_of_lt out 0 (le_refl _)
    (by unfold max_objects NUM_BOX_ELEMENT at hlen; omega)
  unfold decode_gpu_host
  simp only [hc]
  apply gpu_loop_of_records
  intro i hi
  apply gpu_record_ne_none to_int out hlen i
  have h1 := List.mem_range.mp hi
  have h2 : min (to_int counter) max_objects ≤ max_objects := min_le_right _ _
  omega

theorem decode_gpu_host_spec (to_int : ℚ → Int) (out : List ℚ) (res : List Box)
    (h : decode_gpu_host to_int out = some res) : res = reconstruct_spec to_int out := by
  unfold decode_gpu_host at h
  split at h
  · exact absurd h (by simp)
  · rename_i counter hc
    have h0 : out.getD 0 0 = counter := readAt_getD out 0 counter hc 0 rfl
    have hspec := gpu_loop_spec to_int out _ _ _ h
    rw [hspec, List.nil_append]
    unfold reconstruct_spec max_objects
    rw [h0]

theorem mem_qualifying_rows (p : List ℚ) (rows cols : Int) (ct : ℚ) (r : Nat) :
    r ∈ qualifying_rows p rows cols ct ↔
      (r : Int) < rows ∧ ∃ b, decode_row p cols ct r = some (some b) := by
  unfold qualifying_rows
  rw [List.mem_filter, List.mem_range]
  constructor
  · rintro ⟨hr, hq⟩
    refine ⟨by omega, ?_⟩
    cases hrow : decode_row p cols ct r with
    | none => simp [hrow] at hq
    | some o =>
      cases o with
      | none => simp [hrow] at hq
      | some b => exact ⟨b, rfl⟩
  · rintro ⟨hr, b, hb⟩
    refine ⟨by omega, ?_⟩
    simp [hb]

/-- Once the first loop has run through, the candidate list is empty exactly when no row
below `rows` passes both threshold tests. -/
theorem candidates_eq_nil_iff {p : List ℚ} {rows cols : Int} {ct : ℚ} {cands : List Box}
    (hc : decode_candidates p rows cols ct = some cands) :
    cands = [] ↔ ¬ ∃ r : Nat, (r : Int) < rows ∧ RowPasses p cols ct r := by
  have hne : ∀ r : Nat, (r : Int) < rows → decode_row p cols ct r ≠ none := by
    intro r hr
    apply decode_loop_rows_ne_none p cols ct _ _ _ hc
    apply List.mem_range.mpr
    omega
  rw [← List.length_eq_zero, candidates_length hc, List.length_eq_zero]
  constructor
  · rintro hq ⟨r, hr, hpass⟩
    have hb := (decode_row_passes_iff p cols ct r (hne r hr)).mpr hpass
    have hmem := (mem_qualifying_rows p rows cols ct r).mpr ⟨hr, hb⟩
    rw [hq] at hmem
    simp at hmem
  · intro hnone
    apply List.eq_nil_iff_forall_not_mem.mpr
    intro r hmem
    obtain ⟨hr, hb⟩ := (mem_qualifying_rows p rows cols ct r).mp hmem
    exact hnone ⟨r, hr, (decode_row_passes_iff p cols ct r (hne r hr)).mp hb⟩

/-- On a row with objectness `≥ 0` and class scores `≤ 1` (at least one class), what the
variant without the early test yields is what `decode_row` yields. -/
theorem decode_row_of_no_early_skip (p : List ℚ) (cols : Int) (ct : ℚ) (r : Nat)
    (hC : 1 ≤ cols - 5)
    (hobj : ∀ o, readAt p ((r : Int) * cols + 4) = some o → 0 ≤ o)
    (hcls : ∀ k : Nat, (k : Int) < cols - 5 →
      ∀ v, readAt p ((r : Int) * cols + 5 + k) = some v → v ≤ 1)
    (x : Option Box) (h : decode_row_no_early_skip p cols ct r = some x) :
    decode_row p cols ct r = some x := by
  unfold decode_row_no_early_skip at h
  split at h
  · rename_i hrange
    rw [decode_row_of_range hrange]
    unfold decode_row_no_early_skip_at at h
    unfold decode_row_at
    simp only at h ⊢
    cases hobjr : readAt p ((r : Int) * cols + 4) with
    | none => rw [hobjr] at h; exact absurd h (by simp)
    | some objness =>
      rw [hobjr] at h
      simp only at h ⊢
      by_cases hskip : objness < ct
      · simp only [hskip, if_true]
        cases hlab : max_element p ((r : Int) * cols + 5) (cols - 5) with
        | none => rw [hlab] at h; exact absurd h (by simp)
        | some label =>
          rw [hlab] at h
          simp only at h
          cases hprob : readAt p ((r : Int) * cols + 5 + label) with
          | none => rw [hprob] at h; exact absurd h (by simp)
          | some prob =>
            rw [hprob] at h
            simp only at h
            have hlt := (max_element_argmax p _ _ label prob hC hlab hprob).1
            have hp1 : prob ≤ 1 := hcls label hlt prob hprob
            have ho0 : 0 ≤ objness := hobj objness hobjr
            have hconf : prob * objness < ct :=
              lt_of_le_of_lt (by nlinarith) hskip
            simp only [hconf, if_true] at h
            exact h
      · simp only [hskip, if_false]
        exact h
  · exact absurd h (by simp)

theorem decode_loop_of_no_early_skip (p : List ℚ) (clos : Int) (ct : ℚ) :
    ∀ (is : List Nat) (acc res : List Box),
      (∀ i ∈ is, ∀ x, decode_row_no_early_skip p clos ct i = some x →
        decode_row p clos ct i = some x) →
      decode_loop_no_early_skip p clos ct is acc = some res →
      decode_loop p clos ct is acc = some res := by
  intro is
  induction is with
  | nil =>
    intro acc res _ h
    simpa [decode_loop_no_early_skip, decode_loop] using h
  | cons j rest ih =>
    intro acc res hrows h
    have hrest : ∀ i ∈ rest, ∀ x, decode_row_no_early_skip p clos ct i = some x →
        decode_row p clos ct i = some x :=
      fun i hi => hrows i (List.mem_cons_of_mem _ hi)
    have hj := hrows j (List.mem_cons_self _ _)
    unfold decode_loop_no_early_skip at h
    unfold decode_loop
    split at h
    · exact absurd h (by simp)
    · rename_i hrow
      rw [hj none hrow]
      exact ih acc res hrest h
    · rename_i b hrow
      rw [hj (some b) hrow]
      exact ih _ res hrest h

theorem decode_row_no_early_skip_ne_none (p : List ℚ) (rows clos : Int) (ct : ℚ) (i : Nat)
    (hcols : 6 ≤ clos) (hlen : rows * clos ≤ (p.length : Int))
    (hint : (rows - 1) * clos ≤ INT_MAX) (hi : (i : Int) < rows) :
    decode_row_no_early_skip p clos ct i ≠ none := by
  have hnext : ((i : Int) + 1) * clos ≤ rows * clos :=
    mul_le_mul_of_nonneg_right (by omega) (by omega)
  have hbase : 0 ≤ (i : Int) * clos := mul_nonneg (by omega) (by omega)
  have hlast : (i : Int) * clos ≤ (rows - 1) * clos :=
    mul_le_mul_of_nonneg_right (by omega) (by omega)
  have hrange : INT_MIN ≤ (i : Int) * clos ∧ (i : Int) * clos ≤ INT_MAX :=
    ⟨le_trans (by unfold INT_MIN; omega) hbase, le_trans hlast hint⟩
  have hread : ∀ k : Int, 0 ≤ k → k < clos →
      ∃ v, readAt p ((i : Int) * clos + k) = some v := by
    intro k hk0 hk1
    apply readAt_some_of_lt
    · omega
    · have : ((i : Int) + 1) * clos = (i : Int) * clos + clos := by ring
      omega
  obtain ⟨objness, hobj⟩ := hread 4 (by omega) (by omega)
  obtain ⟨cx, hcx⟩ := hread 0 (by omega) (by omega)
  obtain ⟨cy, hcy⟩ := hread 1 (by omega) (by omega)
  obtain ⟨w, hw⟩ := hread 2 (by omega) (by omega)
  obtain ⟨h, hh⟩ := hread 3 (by omega) (by omega)
  obtain ⟨label, hlabel, hlt⟩ := max_element_some p ((i : Int) * clos + 5) (clos - 5)
    (by omega)
    (fun k hk => by
      have := hread (5 + k) (by omega) (by omega)
      rwa [← add_assoc] at this)
  obtain ⟨prob, hprob⟩ := hread (5 + label) (by omega) (by omega)
  rw [← add_assoc] at hprob
  unfold decode_row_no_early_skip
  rw [if_pos hrange]
  unfold decode_row_no_early_skip_at
  simp only [hobj, hlabel, hprob, hcx, hcy, hw, hh]
  split <;> simp

theorem decode_loop_no_early_skip_of_rows (p : List ℚ) (clos : Int) (ct : ℚ) :
    ∀ (is : List Nat) (acc : List Box),
      (∀ i ∈ is, decode_row_no_early_skip p clos ct i ≠ none) →
      ∃ res, decode_loop_no_early_skip p clos ct is acc = some res := by
  intro is
  induction is with
  | nil => intro acc _; exact ⟨acc, rfl⟩
  | cons i rest ih =>
    intro acc h
    have hi := h i (List.mem_cons_self _ _)
    have hrest : ∀ j ∈ rest, decode_row_no_early_skip p clos ct j ≠ none :=
      fun j hj => h j (List.mem_cons_of_mem _ hj)
    unfold decode_loop_no_early_skip
    split
    · rename_i hrow; exact absurd hrow hi
    · exact ih acc hrest
    · exact ih _ hrest

theorem decode_loop_none_of_row (p : List ℚ) (clos : Int) (ct : ℚ) (is : List Nat)
    (acc : List Box) (i : Nat) (hi : i ∈ is) (hrow : decode_row p clos ct i = none) :
    decode_loop p clos ct is acc = none := by
  cases h : decode_loop p clos ct is acc with
  | none => rfl
  | some res => exact absurd hrow (decode_loop_rows_ne_none p clos ct is acc res h i hi)

/-- A row below `rows` that fails makes `decode_cpu` fail. -/
theorem decode_cpu_none_of_row (sort : List Box → List Box) (iou : Box → Box → ℚ)
    (p : List ℚ) (rows clos : Int) (ct nt : ℚ) (i : Nat) (hi : i < rows.toNat)
    (hrow : decode_row p clos ct i = none) :
    decode_cpu sort iou p rows clos ct nt = none := by
  have hc : decode_candidates p rows clos ct = none :=
    decode_loop_none_of_row p clos ct _ [] i (List.mem_range.mpr hi) hrow
  unfold decode_cpu
  rw [hc]

/-! ## Claims -/

/-- C1 (label-scoped NMS): in the list returned by `decode_cpu`, a box at position `i`
and a box at a later position `j` that carry the same label satisfy
`iou a b < nms_threshold`, the earlier box being the first argument of `iou`; this holds
for every buffer, `rows`, `cols`, thresholds, `std::sort` and `iou`. -/
theorem decode_cpu_label_scoped_nms (sort : List Box → List Box) (iou : Box → Box → ℚ)
    (predict : List ℚ) (rows cols : Int) (ct nt : ℚ) (res : List Box)
    (h : decode_cpu sort iou predict rows cols ct nt = some res)
    (i j : Nat) (a b : Box) (hij : i < j) (ha : res[i]? = some a) (hb : res[j]? = some b)
    (hlab : a.label = b.label) : iou a b < nt := by
  obtain ⟨boxes, _, hres⟩ := decode_cpu_some h
  have hp := greedy_pairwise iou nt (sort boxes)
  rw [← hres] at hp
  exact (suppresses_eq_false iou nt a b).mp (pairwise_getElem_some hp i j a b hij ha hb) hlab

/-- Witness of C1: two far-apart boxes of label 0 are both returned, and their `iou`
is below the threshold `0.45`. -/
theorem decode_cpu_label_scoped_nms_witness :
    decode_cpu insertion_sort iou twoApart 2 7 (1 / 4) (9 / 20)
        = some [⟨8, 8, 12, 12, 81 / 100, 0⟩, ⟨28, 28, 32, 32, 72 / 100, 0⟩] ∧
      iou ⟨8, 8, 12, 12, 81 / 100, 0⟩ ⟨28, 28, 32, 32, 72 / 100, 0⟩ < 9 / 20 :=
  ⟨by decide!,
    decode_cpu_label_scoped_nms insertion_sort iou twoApart 2 7 (1 / 4) (9 / 20)
      [⟨8, 8, 12, 12, 81 / 100, 0⟩, ⟨28, 28, 32, 32, 72 / 100, 0⟩] (by decide!) 0 1
      ⟨8, 8, 12, 12, 81 / 100, 0⟩ ⟨28, 28, 32, 32, 72 / 100, 0⟩ (by decide) rfl rfl rfl⟩

/-- C2 (confidence floor): every Box of the list returned by `decode_cpu` has
`confidence ≥ confidence_threshold`, for every buffer, `rows`, `cols` and thresholds. -/
theorem decode_cpu_confidence_floor (sort : List Box → List Box) (hsort : IsStdSort sort)
    (iou : Box → Box → ℚ) (predict : List ℚ) (rows cols : Int) (ct nt : ℚ) (res : List Box)
    (h : decode_cpu sort iou predict rows cols ct nt = some res) (b : Box) (hb : b ∈ res) :
    b.confidence ≥ ct := by
  obtain ⟨boxes, hboxes, hres⟩ := decode_cpu_some h
  have h1 : b ∈ sort boxes := by
    rw [hres] at hb
    exact (greedy_sublist iou nt _).subset hb
  have h2 : b ∈ boxes := (hsort boxes).1.subset h1
  obtain ⟨i, _, hrow⟩ := mem_candidates hboxes h2
  obtain ⟨objness, prob, cx, cy, width, height, label, _, _, _, _, hconf, _, _, _, _, hb⟩ :=
    decode_row_some hrow
  rw [hb]
  exact not_lt.mp hconf

/-- Witness of C2: the box of scenario A has confidence `0.81 ≥ 0.25`. -/
theorem decode_cpu_confidence_floor_witness :
    decode_cpu insertion_sort iou scenarioA 1 7 (1 / 4) (9 / 20)
        = some [⟨8, 8, 12, 12, 81 / 100, 0⟩] ∧
      (⟨8, 8, 12, 12, 81 / 100, 0⟩ : Box).confidence ≥ 1 / 4 :=
  ⟨by decide!,
    decode_cpu_confidence_floor insertion_sort insertion_sort_isStdSort iou scenarioA 1 7
      (1 / 4) (9 / 20) [⟨8, 8, 12, 12, 81 / 100, 0⟩] (by decide!) _
      (List.mem_singleton.mpr rfl)⟩

/-- C3 (sort guarantee): the list returned by `decode_cpu` is sorted by non-increasing
confidence: for positions `i < j` of the result, `result[i].confidence ≥
result[j].confidence`. -/
theorem decode_cpu_sorted (sort : List Box → List Box) (hsort : IsStdSort sort)
    (iou : Box → Box → ℚ) (predict : List ℚ) (rows cols : Int) (ct nt : ℚ) (res : List Box)
    (h : decode_cpu sort iou predict rows cols ct nt = some res)
    (i j : Nat) (a b : Box) (hij : i < j) (ha : res[i]? = some a) (hb : res[j]? = some b) :
    a.confidence ≥ b.confidence := by
  obtain ⟨boxes, _, hres⟩ := decode_cpu_some h
  have hp : res.Pairwise (fun a b => ¬ sort_comp b a) := by
    rw [hres]
    exact (hsort boxes).2.sublist (greedy_sublist iou nt _)
  exact not_lt.mp (pairwise_getElem_some hp i j a b hij ha hb)

/-- Witness of C3: the rows of `twoAscending`, given in ascending confidence, come out in
descending confidence. -/
theorem decode_cpu_sorted_witness :
    decode_cpu insertion_sort iou twoAscending 2 7 (1 / 4) (9 / 20)
        = some [⟨8, 8, 12, 12, 81 / 100, 0⟩, ⟨28, 28, 32, 32, 72 / 100, 0⟩] ∧
      (⟨8, 8, 12, 12, 81 / 100, 0⟩ : Box).confidence
        ≥ (⟨28, 28, 32, 32, 72 / 100, 0⟩ : Box).confidence :=
  ⟨by decide!,
    decode_cpu_sorted insertion_sort insertion_sort_isStdSort iou twoAscending 2 7 (1 / 4) (9 / 20)
      [⟨8, 8, 12, 12, 81 / 100, 0⟩, ⟨28, 28, 32, 32, 72 / 100, 0⟩] (by decide!) 0 1 _ _
      (by decide) rfl rfl⟩

/-- C4, as amended: with `rows ≥ 0`, at least one class (`cols ≥ 6`), `predict` holding
`rows * cols` values and the offset `(rows - 1) * cols` of the last row inside the range
of the 32-bit `int`, `decode_cpu` returns a list: no `int` product overflows and every
read of `predict` is at an index inside `[0, rows * cols)`, whatever the thresholds. -/
theorem decode_cpu_reads_in_bounds (sort : List Box → List Box) (iou : Box → Box → ℚ)
    (predict : List ℚ) (rows cols : Int) (ct nt : ℚ) (hrows : 0 ≤ rows) (hcols : 6 ≤ cols)
    (hlen : (predict.length : Int) = rows * cols) (hint : (rows - 1) * cols ≤ INT_MAX) :
    ∃ res, decode_cpu sort iou predict rows cols ct nt = some res := by
  obtain ⟨boxes, hboxes⟩ := decode_loop_of_rows predict cols ct (List.range rows.toNat) []
    (fun i hi => decode_row_ne_none predict rows cols ct i hcols (le_of_eq hlen.symm) hint
      (by
        have := List.mem_range.mp hi
        omega))
  refine ⟨nms iou nt (sort boxes), ?_⟩
  have hc : decode_candidates predict rows cols ct = some boxes := hboxes
  simp [decode_cpu, hc]

/-- Witness of C4 as amended: scenario A, one row of seven values. -/
theorem decode_cpu_reads_in_bounds_witness :
    (0 : Int) ≤ 1 ∧ (6 : Int) ≤ 7 ∧ ((scenarioA.length : Nat) : Int) = 1 * 7 ∧
      ((1 : Int) - 1) * 7 ≤ INT_MAX ∧
      ∃ res, decode_cpu insertion_sort iou scenarioA 1 7 (1 / 4) (9 / 20) = some res :=
  ⟨by decide, by decide, by decide, by decide,
    decode_cpu_reads_in_bounds insertion_sort iou scenarioA 1 7 (1 / 4) (9 / 20)
      (by decide) (by decide) (by decide) (by decide)⟩

/-- Counterexample to C4 as stated, on two inputs that meet the documented precondition.
With `rows = 1`, `cols = 5` and a buffer of `1 * 5` values the row passes the objectness
test, `std::max_element` on the empty class range gives offset `0`, and `pclass[0]` is the
read of index `5 = rows * cols`, outside the buffer. With `rows = 357913943`, `cols = 6`
and a buffer of `rows * cols = 2147483658` values, the offset `357913942 * 6 = 2147483652`
of the last row is beyond `INT_MAX = 2147483647`: the `int` product of line 39 overflows
and the row is not read inside the buffer. -/
theorem decode_cpu_reads_out_of_bounds_counterexample :
    ((0 : Int) ≤ 1 ∧ (5 : Int) ≤ 5 ∧ ((zeroClasses.length : Nat) : Int) = 1 * 5 ∧
      max_element zeroClasses (0 * 5 + 5) (5 - 5) = some 0 ∧
      readAt zeroClasses (0 * 5 + 5 + 0) = none ∧
      decode_cpu insertion_sort iou zeroClasses 1 5 (1 / 4) (9 / 20) = none) ∧
    ((0 : Int) ≤ 357913943 ∧ (6 : Int) ≤ 6 ∧
      ((hugeBuffer.length : Nat) : Int) = 357913943 * 6 ∧
      INT_MAX < ((357913942 : Nat) : Int) * 6 ∧
      decode_row hugeBuffer 6 (1 / 4) 357913942 = none ∧
      decode_cpu insertion_sort iou hugeBuffer 357913943 6 (1 / 4) (9 / 20) = none) := by
  have hover : INT_MAX < ((357913942 : Nat) : Int) * 6 := by
    unfold INT_MAX
    norm_num
  have hrow : decode_row hugeBuffer 6 (1 / 4) 357913942 = none := by
    unfold decode_row
    rw [if_neg (fun h => absurd h.2 (not_le.mpr hover))]
  have hlast : 357913942 < Int.toNat 357913943 := by norm_num
  have hlen : ((hugeBuffer.length : Nat) : Int) = 357913943 * 6 := by
    simp only [hugeBuffer, List.length_replicate]
    norm_num
  exact ⟨⟨by decide, by decide, by decide, by decide!, by decide!, by decide!⟩,
    ⟨by decide, by decide, hlen, hover, hrow,
      decode_cpu_none_of_row insertion_sort iou hugeBuffer 357913943 6 (1 / 4) (9 / 20)
        357913942 hlast hrow⟩⟩

/-- C5 (capacity bound, parallel path): whatever the host output buffer holds (any
counter, any keep flags) and whatever a float-to-int conversion yields, the list returned
by the reconstruction of `decode_gpu` has at most `max_objects` (= 100) boxes. -/
theorem decode_gpu_capacity (to_int : ℚ → Int) (output_host : List ℚ) (res : List Box)
    (h : decode_gpu_host to_int output_host = some res) :
    (res.length : Int) ≤ max_objects ∧ res.length ≤ 100 := by
  unfold decode_gpu_host at h
  split at h
  · exact absurd h (by simp)
  · rename_i counter _
    have hlen := gpu_loop_length to_int output_host _ _ _ h
    simp only [List.length_nil, List.length_range, Nat.zero_add] at hlen
    have hmin : min (to_int counter) max_objects ≤ max_objects := min_le_right _ _
    unfold max_objects at *
    omega

/-- Witness of C5: of the two records of `twoRecords` the one with a non-zero keep flag
comes back. -/
theorem decode_gpu_capacity_witness :
    decode_gpu_host float_to_int twoRecords = some [⟨1, 2, 3, 4, 9 / 10, 0⟩] ∧
      ((([⟨1, 2, 3, 4, 9 / 10, 0⟩] : List Box).length : Int) ≤ max_objects ∧
        ([⟨1, 2, 3, 4, 9 / 10, 0⟩] : List Box).length ≤ 100) :=
  ⟨by decide!,
    decode_gpu_capacity float_to_int twoRecords [⟨1, 2, 3, 4, 9 / 10, 0⟩] (by decide!)⟩

/-- C6 (no out-of-bounds read in the reconstruction): for a host output buffer of
`1 + max_objects * 7` values, whatever it holds and whatever the counter converts to, the
counter at index `0` and every field `1 + 7 * i + k` (`k` in `0..6`) of every record
`i < min(counter, max_objects)` is inside the buffer, and the reconstruction of
`decode_gpu` returns a list (none of its reads failed). -/
theorem decode_gpu_reads_in_bounds (to_int : ℚ → Int) (output_host : List ℚ)
    (hlen : (output_host.length : Int) = 1 + max_objects * NUM_BOX_ELEMENT) :
    (∃ counter, readAt output_host 0 = some counter ∧
        ∀ i k : Nat, (i : Int) < min (to_int counter) max_objects → k ≤ 6 →
          ∃ v, readAt output_host (1 + NUM_BOX_ELEMENT * (i : Int) + (k : Int)) = some v) ∧
      ∃ res, decode_gpu_host to_int output_host = some res := by
  obtain ⟨counter, hc⟩ := readAt_some_of_lt output_host 0 (le_refl _)
    (by unfold max_objects NUM_BOX_ELEMENT at hlen; omega)
  refine ⟨⟨counter, hc, ?_⟩, ?_⟩
  · intro i k hi hk
    exact gpu_field_in_bounds output_host hlen i k
      (lt_of_lt_of_le hi (min_le_right _ _)) hk
  · unfold decode_gpu_host
    simp only [hc]
    apply gpu_loop_of_records
    intro i hi
    apply gpu_record_ne_none to_int output_host hlen i
    have h1 := List.mem_range.mp hi
    have h2 : min (to_int counter) max_objects ≤ max_objects := min_le_right _ _
    omega

/-- Witness of C6: the buffer `zeroBuffer` has `701` values. -/
theorem decode_gpu_reads_in_bounds_witness :
    ((zeroBuffer.length : Nat) : Int) = 1 + max_objects * NUM_BOX_ELEMENT ∧
      ((∃ counter, readAt zeroBuffer 0 = some counter ∧
        ∀ i k : Nat, (i : Int) < min (float_to_int counter) max_objects → k ≤ 6 →
          ∃ v, readAt zeroBuffer (1 + NUM_BOX_ELEMENT * (i : Int) + (k : Int)) = some v) ∧
      ∃ res, decode_gpu_host float_to_int zeroBuffer = some res) :=
  ⟨by simp only [zeroBuffer, List.length_replicate, max_objects, NUM_BOX_ELEMENT]; rfl,
    decode_gpu_reads_in_bounds float_to_int zeroBuffer
      (by simp only [zeroBuffer, List.length_replicate, max_objects, NUM_BOX_ELEMENT]; rfl)⟩

/-- C7 (geometry validity): a row with `w ≥ 0` and `h ≥ 0` that `decode_cpu` turns into a
Box gives `left ≤ right` and `top ≤ bottom`; hence, when every row below `rows` has
`w, h ≥ 0`, every Box returned by `decode_cpu` satisfies both inequalities. -/
theorem decode_cpu_geometry (sort : List Box → List Box) (hsort : IsStdSort sort)
    (iou : Box → Box → ℚ) (predict : List ℚ) (rows cols : Int) (ct nt : ℚ) :
    (∀ (i : Nat) (b : Box), decode_row predict cols ct i = some (some b) →
        (∀ w, readAt predict ((i : Int) * cols + 2) = some w → 0 ≤ w) →
        (∀ h, readAt predict ((i : Int) * cols + 3) = some h → 0 ≤ h) →
        b.left ≤ b.right ∧ b.top ≤ b.bottom) ∧
      ((∀ i : Nat, (i : Int) < rows →
          (∀ w, readAt predict ((i : Int) * cols + 2) = some w → 0 ≤ w) ∧
          (∀ h, readAt predict ((i : Int) * cols + 3) = some h → 0 ≤ h)) →
        ∀ res, decode_cpu sort iou predict rows cols ct nt = some res →
          ∀ b ∈ res, b.left ≤ b.right ∧ b.top ≤ b.bottom) := by
  have hrow : ∀ (i : Nat) (b : Box), decode_row predict cols ct i = some (some b) →
      (∀ w, readAt predict ((i : Int) * cols + 2) = some w → 0 ≤ w) →
      (∀ h, readAt predict ((i : Int) * cols + 3) = some h → 0 ≤ h) →
      b.left ≤ b.right ∧ b.top ≤ b.bottom := by
    intro i b hb hw hh
    obtain ⟨objness, prob, cx, cy, width, height, label, _, _, _, _, _, _, _, hwidth,
      hheight, hbox⟩ := decode_row_some hb
    have h1 := hw width hwidth
    have h2 := hh height hheight
    rw [hbox]
    constructor
    · show cx - width * (1 / 2) ≤ cx + width * (1 / 2)
      linarith
    · show cy - height * (1 / 2) ≤ cy + height * (1 / 2)
      linarith
  refine ⟨hrow, ?_⟩
  intro hall res hres b hb
  obtain ⟨boxes, hboxes, hgreedy⟩ := decode_cpu_some hres
  have h1 : b ∈ sort boxes := by
    rw [hgreedy] at hb
    exact (greedy_sublist iou nt _).subset hb
  obtain ⟨i, hi, hdec⟩ := mem_candidates hboxes ((hsort boxes).1.subset h1)
  exact hrow i b hdec (hall i hi).1 (hall i hi).2

/-- Witness of C7: the row of scenario A has `w = h = 4`, and its box has
`left = 8 ≤ 12 = right`, `top = 8 ≤ 12 = bottom`. -/
theorem decode_cpu_geometry_witness :
    decode_cpu insertion_sort iou scenarioA 1 7 (1 / 4) (9 / 20)
        = some [⟨8, 8, 12, 12, 81 / 100, 0⟩] ∧
      ((⟨8, 8, 12, 12, 81 / 100, 0⟩ : Box).left ≤ (⟨8, 8, 12, 12, 81 / 100, 0⟩ : Box).right ∧
        (⟨8, 8, 12, 12, 81 / 100, 0⟩ : Box).top ≤ (⟨8, 8, 12, 12, 81 / 100, 0⟩ : Box).bottom) :=
  ⟨by decide!,
    (decode_cpu_geometry insertion_sort insertion_sort_isStdSort iou scenarioA 1 7 (1 / 4)
      (9 / 20)).2
      (by
        intro i hi
        have hi0 : i = 0 := by omega
        subst hi0
        have h2 : readAt scenarioA (((0 : Nat) : Int) * 7 + 2) = some 4 := by decide!
        have h3 : readAt scenarioA (((0 : Nat) : Int) * 7 + 3) = some 4 := by decide!
        constructor
        · intro w hw
          rw [h2] at hw
          cases hw
          norm_num
        · intro h hh
          rw [h3] at hh
          cases hh
          norm_num)
      [⟨8, 8, 12, 12, 81 / 100, 0⟩] (by decide!) ⟨8, 8, 12, 12, 81 / 100, 0⟩
      (List.mem_singleton.mpr rfl)⟩

/-- C8 (scenario A): on the single row `cx = 10, cy = 10, w = 4, h = 4, objectness = 0.9`,
class scores `[0.9, 0.1]`, with `rows = 1`, `cols = 7` and thresholds `0.25` and `0.45`,
`decode_cpu` returns exactly one Box: `left = 8, top = 8, right = 12, bottom = 12,
confidence = 0.81, label = 0`; this for every `std::sort` and every `iou`. -/
theorem decode_cpu_scenarioA (sort : List Box → List Box) (hsort : IsStdSort sort)
    (iou : Box → Box → ℚ) :
    decode_cpu sort iou scenarioA 1 7 (1 / 4) (9 / 20)
      = some [{ left := 8, top := 8, right := 12, bottom := 12, confidence := 81 / 100,
                label := 0 }] := by
  have hc : decode_candidates scenarioA 1 7 (1 / 4)
      = some [{ left := 8, top := 8, right := 12, bottom := 12, confidence := 81 / 100,
                label := 0 }] := by decide!
  have hs := List.perm_singleton.mp (hsort [⟨8, 8, 12, 12, 81 / 100, 0⟩]).1
  simp only [decode_cpu, hc, hs, nms_eq_greedy, greedy_singleton]

/-- Witness of C8: scenario A with insertion sort and the `iou` of the specification. -/
theorem decode_cpu_scenarioA_witness :
    decode_cpu insertion_sort iou scenarioA 1 7 (1 / 4) (9 / 20)
      = some [{ left := 8, top := 8, right := 12, bottom := 12, confidence := 81 / 100,
                label := 0 }] :=
  decode_cpu_scenarioA insertion_sort insertion_sort_isStdSort iou

/-- C9 (no suppression across labels): when the thresholded candidates have pairwise
different labels, `decode_cpu` returns all of them, in the order `std::sort` left them:
the result is a permutation of the candidates and has as many boxes as there are
qualifying rows, whatever `iou` and `nms_threshold` are. -/
theorem decode_cpu_no_cross_label_suppression (sort : List Box → List Box)
    (hsort : IsStdSort sort) (iou : Box → Box → ℚ) (predict : List ℚ) (rows cols : Int)
    (ct nt : ℚ) (cands : List Box)
    (hc : decode_candidates predict rows cols ct = some cands)
    (hlab : cands.Pairwise (fun a b => a.label ≠ b.label)) :
    decode_cpu sort iou predict rows cols ct nt = some (sort cands) ∧
      (sort cands).Perm cands ∧
      (sort cands).length = (qualifying_rows predict rows cols ct).length := by
  have hperm := (hsort cands).1
  have hlab2 : (sort cands).Pairwise (fun a b => a.label ≠ b.label) :=
    hlab.perm hperm.symm (fun h => Ne.symm h)
  have hkeep : (sort cands).Pairwise (fun a b => suppresses iou nt a b = false) :=
    hlab2.imp (fun {a b} h => (suppresses_eq_false iou nt a b).mpr (fun heq => absurd heq h))
  refine ⟨?_, hperm, ?_⟩
  · simp only [decode_cpu, hc, nms_eq_greedy, greedy_eq_self iou nt _ hkeep]
  · rw [hperm.length_eq, candidates_length hc]

/-- Witness of C9 (scenario D): two rows with the same geometry (`iou = 1`), winning
labels `0` and `1`, both above the threshold: both boxes are returned. -/
theorem decode_cpu_no_cross_label_suppression_witness :
    iou ⟨8, 8, 12, 12, 81 / 100, 0⟩ ⟨8, 8, 12, 12, 72 / 100, 1⟩ = 1 ∧
      insertion_sort [⟨8, 8, 12, 12, 81 / 100, 0⟩, ⟨8, 8, 12, 12, 72 / 100, 1⟩]
        = [⟨8, 8, 12, 12, 81 / 100, 0⟩, ⟨8, 8, 12, 12, 72 / 100, 1⟩] ∧
      (decode_cpu insertion_sort iou scenarioD 2 7 (1 / 4) (9 / 20)
          = some (insertion_sort [⟨8, 8, 12, 12, 81 / 100, 0⟩, ⟨8, 8, 12, 12, 72 / 100, 1⟩]) ∧
        (insertion_sort [⟨8, 8, 12, 12, 81 / 100, 0⟩, ⟨8, 8, 12, 12, 72 / 100, 1⟩]).Perm
          [⟨8, 8, 12, 12, 81 / 100, 0⟩, ⟨8, 8, 12, 12, 72 / 100, 1⟩] ∧
        (insertion_sort [⟨8, 8, 12, 12, 81 / 100, 0⟩, ⟨8, 8, 12, 12, 72 / 100, 1⟩]).length
          = (qualifying_rows scenarioD 2 7 (1 / 4)).length) :=
  ⟨by decide!, by decide!,
    decode_cpu_no_cross_label_suppression insertion_sort insertion_sort_isStdSort iou
      scenarioD 2 7 (1 / 4) (9 / 20)
      [⟨8, 8, 12, 12, 81 / 100, 0⟩, ⟨8, 8, 12, 12, 72 / 100, 1⟩] (by decide!)
      (by simp)⟩

/-- C10 (suppression of the lower of two): when exactly two rows qualify, with the same
winning label, different confidences and `iou higher lower ≥ nms_threshold`, `decode_cpu`
returns exactly one Box, the one with the higher confidence. -/
theorem decode_cpu_suppresses_lower (sort : List Box → List Box) (hsort : IsStdSort sort)
    (iou : Box → Box → ℚ) (predict : List ℚ) (rows cols : Int) (ct nt : ℚ) (a b : Box)
    (hc : decode_candidates predict rows cols ct = some [a, b])
    (hlab : a.label = b.label) (hne : a.confidence ≠ b.confidence)
    (hiou : iou (if b.confidence < a.confidence then a else b)
      (if b.confidence < a.confidence then b else a) ≥ nt) :
    decode_cpu sort iou predict rows cols ct nt
      = some [if b.confidence < a.confidence then a else b] := by
  have hsorted := (hsort [a, b]).2
  simp only [decode_cpu, hc, nms_eq_greedy]
  rcases perm_pair (hsort [a, b]).1 with hs | hs
  · rw [hs] at hsorted ⊢
    have h1 : ¬ sort_comp b a := by
      simpa using (List.pairwise_cons.mp hsorted).1
    have h2 : b.confidence < a.confidence :=
      lt_of_le_of_ne (not_lt.mp h1) (Ne.symm hne)
    simp only [h2, if_true] at hiou ⊢
    rw [greedy_pair_suppressed iou nt a b hlab hiou]
  · rw [hs] at hsorted ⊢
    have h1 : ¬ sort_comp a b := by
      simpa using (List.pairwise_cons.mp hsorted).1
    have h2 : a.confidence < b.confidence := lt_of_le_of_ne (not_lt.mp h1) hne
    have h3 : ¬ b.confidence < a.confidence := not_lt.mpr (le_of_lt h2)
    simp only [h3, if_false] at hiou ⊢
    rw [greedy_pair_suppressed iou nt b a hlab.symm hiou]

/-- Witness of C10 (scenario B): the row of scenario A and a copy with objectness `0.5`
(confidence `0.45`), thresholds `0.25` and `0.45`: only the box of confidence `0.81` is
returned. -/
theorem decode_cpu_suppresses_lower_witness :
    decode_candidates scenarioB 2 7 (1 / 4)
        = some [⟨8, 8, 12, 12, 81 / 100, 0⟩, ⟨8, 8, 12, 12, 45 / 100, 0⟩] ∧
      iou ⟨8, 8, 12, 12, 81 / 100, 0⟩ ⟨8, 8, 12, 12, 45 / 100, 0⟩ = 1 ∧
      decode_cpu insertion_sort iou scenarioB 2 7 (1 / 4) (9 / 20)
        = some [⟨8, 8, 12, 12, 81 / 100, 0⟩] :=
  ⟨by decide!, by decide!,
    (decode_cpu_suppresses_lower insertion_sort insertion_sort_isStdSort iou scenarioB 2 7
      (1 / 4) (9 / 20) ⟨8, 8, 12, 12, 81 / 100, 0⟩ ⟨8, 8, 12, 12, 45 / 100, 0⟩
      (by decide!) rfl (by decide!) (by decide!)).trans (by decide!)⟩

/-- C11, as amended: when at least one class exists (`cols - 5 ≥ 1`) and the objectness
and the class scores of every row below `rows` lie in `[0, 1]`, every Box returned by
`decode_cpu` has its confidence in `[0, 1]`, whatever the thresholds. -/
theorem decode_cpu_confidence_unit_interval (sort : List Box → List Box)
    (hsort : IsStdSort sort) (iou : Box → Box → ℚ) (predict : List ℚ) (rows cols : Int)
    (ct nt : ℚ) (res : List Box) (hC : 1 ≤ cols - 5)
    (hobj : ∀ r : Nat, (r : Int) < rows →
      ∀ o, readAt predict ((r : Int) * cols + 4) = some o → 0 ≤ o ∧ o ≤ 1)
    (hcls : ∀ r : Nat, (r : Int) < rows → ∀ k : Nat, (k : Int) < cols - 5 →
      ∀ v, readAt predict ((r : Int) * cols + 5 + k) = some v → 0 ≤ v ∧ v ≤ 1)
    (h : decode_cpu sort iou predict rows cols ct nt = some res) (b : Box) (hb : b ∈ res) :
    0 ≤ b.confidence ∧ b.confidence ≤ 1 := by
  obtain ⟨r, hr, hrow⟩ := mem_result_row hsort h hb
  obtain ⟨label, objness, prob, _, hlt, hobjr, hprob, hconf, _, _⟩ :=
    decode_row_first_max hC hrow
  obtain ⟨ho0, ho1⟩ := hobj r hr objness hobjr
  obtain ⟨hp0, hp1⟩ := hcls r hr label hlt prob hprob
  rw [hconf]
  exact ⟨mul_nonneg hp0 ho0, mul_le_one₀ hp1 ho0 ho1⟩

/-- Witness of C11 as amended: scenario A, whose scores `0.9, 0.9, 0.1` lie in `[0, 1]`;
the confidence `0.81` of its box lies in `[0, 1]`. -/
theorem decode_cpu_confidence_unit_interval_witness :
    decode_cpu insertion_sort iou scenarioA 1 7 (1 / 4) (9 / 20)
        = some [⟨8, 8, 12, 12, 81 / 100, 0⟩] ∧
      (0 ≤ (⟨8, 8, 12, 12, 81 / 100, 0⟩ : Box).confidence ∧
        (⟨8, 8, 12, 12, 81 / 100, 0⟩ : Box).confidence ≤ 1) :=
  ⟨by decide!,
    decode_cpu_confidence_unit_interval insertion_sort insertion_sort_isStdSort iou
      scenarioA 1 7 (1 / 4) (9 / 20) [⟨8, 8, 12, 12, 81 / 100, 0⟩] (by decide)
      (by
        intro r hr o ho
        have hr0 : r = 0 := by omega
        subst hr0
        have h4 : readAt scenarioA (((0 : Nat) : Int) * 7 + 4) = some (9 / 10) := by decide!
        rw [h4] at ho
        cases ho
        norm_num)
      (by
        intro r hr k hk v hv
        have hr0 : r = 0 := by omega
        subst hr0
        have hk2 : k = 0 ∨ k = 1 := by omega
        rcases hk2 with rfl | rfl
        · have h5 : readAt scenarioA (((0 : Nat) : Int) * 7 + 5 + ((0 : Nat) : Int))
              = some (9 / 10) := by decide!
          rw [h5] at hv
          cases hv
          norm_num
        · have h6 : readAt scenarioA (((0 : Nat) : Int) * 7 + 5 + ((1 : Nat) : Int))
              = some (1 / 10) := by decide!
          rw [h6] at hv
          cases hv
          norm_num)
      (by decide!) ⟨8, 8, 12, 12, 81 / 100, 0⟩ (List.mem_singleton.mpr rfl)⟩

/-- Counterexample to C11 as stated: both inputs have one class and hold `rows * cols`
values. With objectness `2` and class score `2` the returned Box has confidence `4 > 1`;
with objectness `0.5`, class score `-0.5` and `confidence_threshold = -1` the returned Box
has confidence `-0.25 < 0`. -/
theorem decode_cpu_confidence_out_of_range_counterexample :
    ((1 : Int) ≤ 6 - 5 ∧ ((overOne.length : Nat) : Int) = 1 * 6 ∧
      decode_cpu insertion_sort iou overOne 1 6 (1 / 4) (9 / 20)
        = some [⟨0, 0, 0, 0, 4, 0⟩] ∧
      ¬ ((⟨0, 0, 0, 0, 4, 0⟩ : Box).confidence ≤ 1)) ∧
    ((1 : Int) ≤ 6 - 5 ∧ ((belowZero.length : Nat) : Int) = 1 * 6 ∧
      decode_cpu insertion_sort iou belowZero 1 6 (-1) (9 / 20)
        = some [⟨0, 0, 0, 0, -1 / 4, 0⟩] ∧
      ¬ (0 ≤ (⟨0, 0, 0, 0, -1 / 4, 0⟩ : Box).confidence)) := by
  refine ⟨⟨by decide, by decide, by decide!, by decide!⟩,
    ⟨by decide, by decide, by decide!, by decide!⟩⟩

/-- C12 (label = first maximum): with at least one class (`cols - 5 ≥ 1`), the Box that
row `r` yields has as label the smallest offset `k` in `[0, C)` at which the class score
of the row is the greatest of its `C` class scores, and as confidence that score times
the objectness of the row; every Box returned by `decode_cpu` is such a Box of a row
below `rows`. -/
theorem decode_cpu_label_first_max (predict : List ℚ) (cols : Int) (ct : ℚ)
    (hC : 1 ≤ cols - 5) :
    (∀ (r : Nat) (b : Box), decode_row predict cols ct r = some (some b) →
        RowFirstMax predict cols r b) ∧
      (∀ (sort : List Box → List Box), IsStdSort sort → ∀ (iou : Box → Box → ℚ)
        (rows : Int) (nt : ℚ) (res : List Box),
        decode_cpu sort iou predict rows cols ct nt = some res → ∀ b ∈ res,
          ∃ r : Nat, (r : Int) < rows ∧ decode_row predict cols ct r = some (some b) ∧
            RowFirstMax predict cols r b) := by
  refine ⟨fun r b h => decode_row_first_max hC h, ?_⟩
  intro sort hsort iou rows nt res h b hb
  obtain ⟨r, hr, hrow⟩ := mem_result_row hsort h hb
  exact ⟨r, hr, hrow, decode_row_first_max hC hrow⟩

/-- Witness of C12: a row whose two class scores are both `0.9` gets label `0`. -/
theorem decode_cpu_label_first_max_witness :
    (1 : Int) ≤ 7 - 5 ∧
      decode_row tiedClasses 7 (1 / 4) 0 = some (some ⟨8, 8, 12, 12, 81 / 100, 0⟩) ∧
      RowFirstMax tiedClasses 7 0 ⟨8, 8, 12, 12, 81 / 100, 0⟩ :=
  ⟨by decide, by decide!,
    (decode_cpu_label_first_max tiedClasses 7 (1 / 4) (by decide)).1 0
      ⟨8, 8, 12, 12, 81 / 100, 0⟩ (by decide!)⟩

/-- C14 (every suppression is justified): each thresholded candidate `c` that is absent
from the result of `decode_cpu` has a witness `w` in the result: a returned Box with the
label of `c`, ranked before `c` in the confidence-sorted list (so `w.confidence ≥
c.confidence`), with `iou w c ≥ nms_threshold`. Position by position: the box at a
position of the sorted list is either accepted right after the boxes accepted before it,
or removed by one of those accepted boxes, never by a suppressed one. -/
theorem decode_cpu_suppression_justified (sort : List Box → List Box)
    (hsort : IsStdSort sort) (iou : Box → Box → ℚ) (predict : List ℚ) (rows cols : Int)
    (ct nt : ℚ) (cands res : List Box)
    (hc : decode_candidates predict rows cols ct = some cands)
    (h : decode_cpu sort iou predict rows cols ct nt = some res) :
    (∀ c ∈ cands, c ∉ res → ∃ (pre post : List Box) (w : Box),
        sort cands = pre ++ c :: post ∧ w ∈ pre ∧ w ∈ res ∧ w.label = c.label ∧
          w.confidence ≥ c.confidence ∧ iou w c ≥ nt) ∧
      (∀ (pre post : List Box) (c : Box), sort cands = pre ++ c :: post →
        (∃ tail, res = nms iou nt pre ++ c :: tail) ∨
        (∃ w, w ∈ pre ∧ w ∈ nms iou nt pre ∧ w ∈ res ∧ w.label = c.label ∧
          w.confidence ≥ c.confidence ∧ iou w c ≥ nt)) := by
  have hres : res = greedy iou nt (sort cands) := by
    simp only [decode_cpu, hc, Option.some.injEq] at h
    rw [← h, nms_eq_greedy]
  have hpos : ∀ (pre post : List Box) (c : Box), sort cands = pre ++ c :: post →
      (∃ tail, res = nms iou nt pre ++ c :: tail) ∨
      (∃ w, w ∈ pre ∧ w ∈ nms iou nt pre ∧ w ∈ res ∧ w.label = c.label ∧
        w.confidence ≥ c.confidence ∧ iou w c ≥ nt) := by
    intro pre post c hsplit
    rw [nms_eq_greedy, hres, hsplit]
    rcases greedy_justified iou nt pre post c with hkept | ⟨w, hw, hs⟩
    · exact Or.inl hkept
    · right
      have hwpre : w ∈ pre := (greedy_sublist iou nt pre).subset hw
      have hwres : w ∈ greedy iou nt (pre ++ c :: post) :=
        (greedy_initial_segment iou nt (c :: post) pre).subset hw
      obtain ⟨hlab, hiou⟩ := (suppresses_eq_true iou nt w c).mp hs
      have hsorted := (hsort cands).2
      rw [hsplit] at hsorted
      have hwc : ¬ sort_comp c w :=
        (List.pairwise_append.mp hsorted).2.2 w hwpre c (List.mem_cons_self _ _)
      exact ⟨w, hwpre, hw, hwres, hlab, not_lt.mp hwc, hiou⟩
  refine ⟨?_, hpos⟩
  intro c hcmem hcres
  have hcs : c ∈ sort cands := (hsort cands).1.symm.subset hcmem
  obtain ⟨pre, post, hsplit⟩ := List.append_of_mem hcs
  rcases hpos pre post c hsplit with ⟨tail, htail⟩ | ⟨w, hwpre, _, hwres, hlab, hconf, hiou⟩
  · exact absurd (by rw [htail]; simp) hcres
  · exact ⟨pre, post, w, hsplit, hwpre, hwres, hlab, hconf, hiou⟩

/-- Witness of C14 (scenario B): the candidate of confidence `0.45` is absent from the
result, and the returned box of confidence `0.81`, ranked before it, has its label and
overlaps it. -/
theorem decode_cpu_suppression_justified_witness :
    decode_candidates scenarioB 2 7 (1 / 4)
        = some [⟨8, 8, 12, 12, 81 / 100, 0⟩, ⟨8, 8, 12, 12, 45 / 100, 0⟩] ∧
      decode_cpu insertion_sort iou scenarioB 2 7 (1 / 4) (9 / 20)
        = some [⟨8, 8, 12, 12, 81 / 100, 0⟩] ∧
      ∃ (pre post : List Box) (w : Box),
        insertion_sort [⟨8, 8, 12, 12, 81 / 100, 0⟩, ⟨8, 8, 12, 12, 45 / 100, 0⟩]
          = pre ++ ⟨8, 8, 12, 12, 45 / 100, 0⟩ :: post ∧ w ∈ pre ∧
        w ∈ [(⟨8, 8, 12, 12, 81 / 100, 0⟩ : Box)] ∧
        w.label = (⟨8, 8, 12, 12, 45 / 100, 0⟩ : Box).label ∧
        w.confidence ≥ (⟨8, 8, 12, 12, 45 / 100, 0⟩ : Box).confidence ∧
        iou w ⟨8, 8, 12, 12, 45 / 100, 0⟩ ≥ 9 / 20 :=
  ⟨by decide!, by decide!,
    (decode_cpu_suppression_justified insertion_sort insertion_sort_isStdSort iou scenarioB
      2 7 (1 / 4) (9 / 20) [⟨8, 8, 12, 12, 81 / 100, 0⟩, ⟨8, 8, 12, 12, 45 / 100, 0⟩]
      [⟨8, 8, 12, 12, 81 / 100, 0⟩] (by decide!) (by decide!)).1
      ⟨8, 8, 12, 12, 45 / 100, 0⟩ (by simp) (by decide!)⟩

/-- C15, as amended: `std::sort` is not stable, and the order of candidates of equal
confidence after the sort step is not fixed by its contract; the order is fixed between
candidates of different confidences: when the candidates have pairwise different
confidences, every implementation of `std::sort` gives the same sorted list, and
`decode_cpu` the same result. -/
theorem decode_cpu_sort_determined (sortA sortB : List Box → List Box)
    (hA : IsStdSort sortA) (hB : IsStdSort sortB) (iou : Box → Box → ℚ) (predict : List ℚ)
    (rows cols : Int) (ct nt : ℚ) (cands : List Box)
    (hc : decode_candidates predict rows cols ct = some cands)
    (hdist : cands.Pairwise (fun a b => a.confidence ≠ b.confidence)) :
    sortA cands = sortB cands ∧
      decode_cpu sortA iou predict rows cols ct nt
        = decode_cpu sortB iou predict rows cols ct nt := by
  have hs := std_sort_unique sortA sortB hA hB cands hdist
  refine ⟨hs, ?_⟩
  simp only [decode_cpu, hc, hs]

/-- Witness of C15 as amended (scenario B, confidences `0.81` and `0.45`): insertion sort
and merge sort give the same sorted list and the same result. -/
theorem decode_cpu_sort_determined_witness :
    decode_candidates scenarioB 2 7 (1 / 4)
        = some [⟨8, 8, 12, 12, 81 / 100, 0⟩, ⟨8, 8, 12, 12, 45 / 100, 0⟩] ∧
      (insertion_sort [⟨8, 8, 12, 12, 81 / 100, 0⟩, ⟨8, 8, 12, 12, 45 / 100, 0⟩]
          = merge_sort [⟨8, 8, 12, 12, 81 / 100, 0⟩, ⟨8, 8, 12, 12, 45 / 100, 0⟩] ∧
        decode_cpu insertion_sort iou scenarioB 2 7 (1 / 4) (9 / 20)
          = decode_cpu merge_sort iou scenarioB 2 7 (1 / 4) (9 / 20)) :=
  ⟨by decide!,
    decode_cpu_sort_determined insertion_sort merge_sort insertion_sort_isStdSort
      merge_sort_isStdSort iou scenarioB 2 7 (1 / 4) (9 / 20)
      [⟨8, 8, 12, 12, 81 / 100, 0⟩, ⟨8, 8, 12, 12, 45 / 100, 0⟩] (by decide!)
      (by decide!)⟩

/-- Counterexample to C15 as stated, with `std::sort` as libstdc++ runs it. The seventeen
rows of `seventeenEqual` all qualify with confidence `0.81`, so the candidates are the
boxes of rows `0, 1, ..., 16` in row order. Seventeen elements exceed the threshold `16`
of `std::__introsort_loop`: the median step swaps positions `0` and `8` and the partition
swaps `1` with `16`, `2` with `15`, up to `8` with `9`; no comparison ever holds, so the
final insertion sort moves nothing. `decode_cpu` returns the boxes of rows
`8, 16, 15, ..., 9, 0, 7, ..., 1` in that order: the box of row `8` comes first and the
box of row `0` tenth, though they have the same confidence. -/
theorem decode_cpu_sort_not_stable_counterexample :
    decode_candidates seventeenEqual 17 7 (1 / 4) = some ((List.range 17).map equalBox) ∧
      (equalBox 8).confidence = (equalBox 0).confidence ∧
      libstdcxx_sort ((List.range 17).map equalBox)
        = [8, 16, 15, 14, 13, 12, 11, 10, 9, 0, 7, 6, 5, 4, 3, 2, 1].map equalBox ∧
      decode_cpu libstdcxx_sort iou seventeenEqual 17 7 (1 / 4) (9 / 20)
        = some ([8, 16, 15, 14, 13, 12, 11, 10, 9, 0, 7, 6, 5, 4, 3, 2, 1].map equalBox) :=
  ⟨by decide!, by decide!, by decide!, by decide!⟩

/-- C16 (reconstruction of `decode_gpu`): whatever the host output buffer holds, the list
the reconstruction returns is `reconstruct_spec`: in record order, exactly the records
with index `i < min(int(counter), max_objects)` whose keep flag (field 6 converted to
int) is non-zero, each as `Box(field0, field1, field2, field3, field4, int(field5))`;
and on a buffer of `1 + max_objects * 7` values the reconstruction does return it. -/
theorem decode_gpu_reconstruction (to_int : ℚ → Int) (output_host : List ℚ) :
    (∀ res, decode_gpu_host to_int output_host = some res →
        res = reconstruct_spec to_int output_host) ∧
      ((output_host.length : Int) = 1 + max_objects * NUM_BOX_ELEMENT →
        decode_gpu_host to_int output_host = some (reconstruct_spec to_int output_host)) := by
  refine ⟨fun res h => decode_gpu_host_spec to_int output_host res h, ?_⟩
  intro hlen
  obtain ⟨res, hres⟩ := decode_gpu_host_some to_int output_host hlen
  rw [hres, decode_gpu_host_spec to_int output_host res hres]

/-- Witness of C16: of the two records of `twoRecords` (counter `2`), the first has keep
flag `1` and is returned, the second has keep flag `0` and is not. -/
theorem decode_gpu_reconstruction_witness :
    decode_gpu_host float_to_int twoRecords = some [⟨1, 2, 3, 4, 9 / 10, 0⟩] ∧
      [(⟨1, 2, 3, 4, 9 / 10, 0⟩ : Box)] = reconstruct_spec float_to_int twoRecords :=
  ⟨by decide!,
    (decode_gpu_reconstruction float_to_int twoRecords).1 [⟨1, 2, 3, 4, 9 / 10, 0⟩]
      (by decide!)⟩

/-- C17 (the top candidate survives): when at least one row below `rows` passes both
threshold tests, the result of `decode_cpu` is non-empty and its first Box is a candidate
of the greatest confidence among all the thresholded candidates; the result is empty
exactly when no row passes. -/
theorem decode_cpu_top_survives (sort : List Box → List Box) (hsort : IsStdSort sort)
    (iou : Box → Box → ℚ) (predict : List ℚ) (rows cols : Int) (ct nt : ℚ)
    (cands res : List Box)
    (hc : decode_candidates predict rows cols ct = some cands)
    (h : decode_cpu sort iou predict rows cols ct nt = some res) :
    ((∃ r : Nat, (r : Int) < rows ∧ RowPasses predict cols ct r) →
        ∃ (top : Box) (tail : List Box), res = top :: tail ∧ top ∈ cands ∧
          ∀ c ∈ cands, c.confidence ≤ top.confidence) ∧
      (res = [] ↔ ¬ ∃ r : Nat, (r : Int) < rows ∧ RowPasses predict cols ct r) := by
  have hres : res = greedy iou nt (sort cands) := by
    simp only [decode_cpu, hc, Option.some.injEq] at h
    rw [← h, nms_eq_greedy]
  obtain ⟨hperm, hsorted⟩ := hsort cands
  have hnil : res = [] ↔ cands = [] := by
    constructor
    · intro hr
      cases hs : sort cands with
      | nil =>
        rw [hs] at hperm
        exact hperm.symm.eq_nil
      | cons top rest =>
        rw [hres, hs, greedy_cons] at hr
        exact absurd hr (by simp)
    · intro hcn
      have hsn : sort cands = [] := by
        rw [hcn] at hperm
        rw [hcn]
        exact hperm.eq_nil
      rw [hres, hsn, greedy_nil]
  refine ⟨?_, hnil.trans (candidates_eq_nil_iff hc)⟩
  intro hpass
  have hcne : cands ≠ [] := fun hcn => (candidates_eq_nil_iff hc).mp hcn hpass
  cases hs : sort cands with
  | nil =>
    rw [hs] at hperm
    exact absurd hperm.symm.eq_nil hcne
  | cons top rest =>
    rw [hs] at hperm hsorted
    refine ⟨top, _, by rw [hres, hs, greedy_cons], hperm.subset (List.mem_cons_self _ _), ?_⟩
    intro c hcm
    rcases List.mem_cons.mp (hperm.symm.subset hcm) with rfl | hrest
    · exact le_refl _
    · exact not_lt.mp ((List.pairwise_cons.mp hsorted).1 c hrest)

/-- Witness of C17 (scenario B): both rows pass; the first box of the result is the
candidate of confidence `0.81`, the greatest. -/
theorem decode_cpu_top_survives_witness :
    decode_cpu insertion_sort iou scenarioB 2 7 (1 / 4) (9 / 20)
        = some [⟨8, 8, 12, 12, 81 / 100, 0⟩] ∧
      ∃ (top : Box) (tail : List Box),
        [(⟨8, 8, 12, 12, 81 / 100, 0⟩ : Box)] = top :: tail ∧
          top ∈ [(⟨8, 8, 12, 12, 81 / 100, 0⟩ : Box), ⟨8, 8, 12, 12, 45 / 100, 0⟩] ∧
          ∀ c ∈ [(⟨8, 8, 12, 12, 81 / 100, 0⟩ : Box), ⟨8, 8, 12, 12, 45 / 100, 0⟩],
            c.confidence ≤ top.confidence :=
  ⟨by decide!, (decode_cpu_top_survives insertion_sort insertion_sort_isStdSort iou scenarioB 2 7
    (1 / 4) (9 / 20) [⟨8, 8, 12, 12, 81 / 100, 0⟩, ⟨8, 8, 12, 12, 45 / 100, 0⟩]
    [⟨8, 8, 12, 12, 81 / 100, 0⟩] (by decide!) (by decide!)).1
    ⟨0, by decide, 9 / 10, 9 / 10, 0, by decide!, by decide!, by decide!, by decide!,
      by decide!⟩⟩

/-- C18 (idempotence of the suppression): running the suppression loop of lines 72-94 on
its own output returns that output unchanged, for every list of boxes (confidence-sorted
or not), every `iou` and every `nms_threshold`. -/
theorem nms_idempotent (iou : Box → Box → ℚ) (nms_threshold : ℚ) (boxes : List Box) :
    nms iou nms_threshold (nms iou nms_threshold boxes) = nms iou nms_threshold boxes := by
  rw [nms_eq_greedy, nms_eq_greedy]
  exact greedy_eq_self iou nms_threshold _ (greedy_pairwise iou nms_threshold boxes)

/-- C19, as amended: on an input with at least one class (`cols ≥ 6`) whose objectness
values are `≥ 0` and whose class scores are `≤ 1`, whenever the variant that omits the
test `objness < confidence_threshold` returns a list, `decode_cpu` returns the same list;
and when `predict` holds at least `rows * cols` values, with the offset of the last row
inside the range of `int`, both do return a list, the same one. -/
theorem decode_cpu_early_skip_optimisation (sort : List Box → List Box)
    (iou : Box → Box → ℚ) (predict : List ℚ) (rows cols : Int) (ct nt : ℚ)
    (hC : 6 ≤ cols)
    (hobj : ∀ r : Nat, (r : Int) < rows →
      ∀ o, readAt predict ((r : Int) * cols + 4) = some o → 0 ≤ o)
    (hcls : ∀ r : Nat, (r : Int) < rows → ∀ k : Nat, (k : Int) < cols - 5 →
      ∀ v, readAt predict ((r : Int) * cols + 5 + k) = some v → v ≤ 1) :
    (∀ res, decode_cpu_no_early_skip sort iou predict rows cols ct nt = some res →
        decode_cpu sort iou predict rows cols ct nt = some res) ∧
      (rows * cols ≤ (predict.length : Int) → (rows - 1) * cols ≤ INT_MAX → ∃ res,
        decode_cpu_no_early_skip sort iou predict rows cols ct nt = some res ∧
        decode_cpu sort iou predict rows cols ct nt = some res) := by
  have hloop : ∀ boxes,
      decode_loop_no_early_skip predict cols ct (List.range rows.toNat) [] = some boxes →
      decode_loop predict cols ct (List.range rows.toNat) [] = some boxes := by
    intro boxes hb
    apply decode_loop_of_no_early_skip predict cols ct _ _ _ _ hb
    intro r hr x hx
    have hr' : (r : Int) < rows := by
      have := List.mem_range.mp hr
      omega
    exact decode_row_of_no_early_skip predict cols ct r (by omega) (hobj r hr')
      (hcls r hr') x hx
  have hpart : ∀ res, decode_cpu_no_early_skip sort iou predict rows cols ct nt = some res →
      decode_cpu sort iou predict rows cols ct nt = some res := by
    intro res h
    unfold decode_cpu_no_early_skip at h
    split at h
    · exact absurd h (by simp)
    · rename_i boxes hb
      have hc : decode_candidates predict rows cols ct = some boxes := hloop boxes hb
      simp only [decode_cpu, hc]
      exact h
  refine ⟨hpart, ?_⟩
  intro hlen hint
  obtain ⟨boxes, hb⟩ := decode_loop_no_early_skip_of_rows predict cols ct
    (List.range rows.toNat) []
    (fun i hi => decode_row_no_early_skip_ne_none predict rows cols ct i hC hlen hint (by
      have := List.mem_range.mp hi
      omega))
  have hv : decode_cpu_no_early_skip sort iou predict rows cols ct nt
      = some (nms iou nt (sort boxes)) := by
    simp only [decode_cpu_no_early_skip, hb]
  exact ⟨_, hv, hpart _ hv⟩

/-- Witness of C19 as amended (scenario C): the row has objectness `0.1 ≥ 0` and class
scores `0.9, 0.1 ≤ 1`; `decode_cpu` skips it on the early test, the variant on the
combined confidence `0.09`, and both return the empty list. -/
theorem decode_cpu_early_skip_optimisation_witness :
    decode_cpu_no_early_skip insertion_sort iou scenarioC 1 7 (1 / 4) (9 / 20) = some [] ∧
      decode_cpu insertion_sort iou scenarioC 1 7 (1 / 4) (9 / 20) = some [] ∧
      ∃ res, decode_cpu_no_early_skip insertion_sort iou scenarioC 1 7 (1 / 4) (9 / 20)
          = some res ∧
        decode_cpu insertion_sort iou scenarioC 1 7 (1 / 4) (9 / 20) = some res :=
  ⟨by decide!, by decide!,
    (decode_cpu_early_skip_optimisation insertion_sort iou scenarioC 1 7 (1 / 4) (9 / 20)
      (by decide)
      (by
        intro r hr o ho
        have hr0 : r = 0 := by omega
        subst hr0
        have h4 : readAt scenarioC (((0 : Nat) : Int) * 7 + 4) = some (1 / 10) := by decide!
        rw [h4] at ho
        cases ho
        norm_num)
      (by
        intro r hr k hk v hv
        have hr0 : r = 0 := by omega
        subst hr0
        have hk2 : k = 0 ∨ k = 1 := by omega
        rcases hk2 with rfl | rfl
        · have h5 : readAt scenarioC (((0 : Nat) : Int) * 7 + 5 + ((0 : Nat) : Int))
              = some (9 / 10) := by decide!
          rw [h5] at hv
          cases hv
          norm_num
        · have h6 : readAt scenarioC (((0 : Nat) : Int) * 7 + 5 + ((1 : Nat) : Int))
              = some (1 / 10) := by decide!
          rw [h6] at hv
          cases hv
          norm_num)).2 (by decide) (by decide)⟩

/-- Counterexample to C19 as stated, without a class (`cols = 5`). On `noClassLong`
(`rows = 2`, eleven values) every objectness is `0.1 ≥ 0` and there is no class score;
`decode_cpu` skips both rows on the early test and returns no box, while the variant
reads `pclass[0]`, the value `10` that follows each row, as the score and returns two
boxes of confidence `1`. On `noClassExact` (`rows = 1`, five values) `decode_cpu` returns
no box and the variant reads outside the buffer. -/
theorem decode_cpu_early_skip_no_class_counterexample :
    ((∀ r : Nat, (r : Int) < 2 →
        ∀ o, readAt noClassLong ((r : Int) * 5 + 4) = some o → 0 ≤ o) ∧
      (∀ r : Nat, (r : Int) < 2 → ∀ k : Nat, (k : Int) < 5 - 5 →
        ∀ v, readAt noClassLong ((r : Int) * 5 + 5 + k) = some v → v ≤ 1) ∧
      decode_cpu insertion_sort iou noClassLong 2 5 (1 / 4) (9 / 20) = some [] ∧
      decode_cpu_no_early_skip insertion_sort iou noClassLong 2 5 (1 / 4) (9 / 20)
        = some [⟨0, 0, 0, 0, 1, 0⟩, ⟨10, 0, 10, 0, 1, 0⟩]) ∧
    (((noClassExact.length : Nat) : Int) = 1 * 5 ∧
      decode_cpu insertion_sort iou noClassExact 1 5 (1 / 4) (9 / 20) = some [] ∧
      decode_cpu_no_early_skip insertion_sort iou noClassExact 1 5 (1 / 4) (9 / 20)
        = none) := by
  refine ⟨⟨?_, ?_, by decide!, by decide!⟩, ⟨by decide, by decide!, by decide!⟩⟩
  · intro r hr o ho
    have hr2 : r = 0 ∨ r = 1 := by omega
    rcases hr2 with rfl | rfl
    · have h4 : readAt noClassLong (((0 : Nat) : Int) * 5 + 4) = some (1 / 10) := by
        decide!
      rw [h4] at ho
      cases ho
      norm_num
    · have h9 : readAt noClassLong (((1 : Nat) : Int) * 5 + 4) = some (1 / 10) := by
        decide!
      rw [h9] at ho
      cases ho
      norm_num
  · intro r _ k hk
    omega

end Yolov5
